import Mathlib

/-!
# Verification of the spannerplan plan-graph model and tree pipeline

Shallow embedding of the `spannerplan` repository:

* `queryplan.go` — the plan graph (`QueryPlan`), its navigation and
  classification rules (`IsVisible`, `IsPredicate`, `GetLinkType`, …) and the
  node-title formatter (`NodeTitle`).
* `stats` package (`Extract`) — typed extraction of a node's untyped
  statistics payload.
* `plantree` package (`buildTree`, `ProcessPlan`) — the depth-first
  linearizer that smuggles per-node identity through an external text-only
  tree-drawing collaborator, and the decoder that recovers structured rows
  from the collaborator's rendered blob.

External collaborators (Go's `encoding/json` string codec, the `treeprint`
tree-drawing engine) are modelled at their interface: the JSON string codec
follows `encoding/json`'s documented escaping rules, and the tree-drawing
engine is an arbitrary function satisfying the contract stated in the spec
(it prefixes every payload line with glyphs that contain no tab, no null
byte and no newline).

Machine integers (`int32` indices) are modelled as `Nat`; plan node indices
are non-negative in every plan produced by the loader.
-/

set_option maxHeartbeats 1000000

namespace Spannerplan

/-! ## Data model (`sppb.PlanNode`, `sppb.PlanNode_ChildLink`)

Protobuf getters on a `nil` message return the zero value; a `nil`
`ChildLink` is modelled as `none : Option ChildLink`, whose `GetChildIndex`
is `0` and whose `GetType` is `""`. -/

/-- `sppb.PlanNode_Kind`: `KIND_UNSPECIFIED`, `RELATIONAL`, `SCALAR`. -/
inductive NodeKind where
  | UNSPECIFIED
  | RELATIONAL
  | SCALAR
deriving DecidableEq, Repr

/-- `sppb.PlanNode_ChildLink`: child index, free-form role string, variable
name.  `int32` child indices are modelled as `Nat`. -/
structure ChildLink where
  childIndex : Nat := 0
  type : String := ""
  var : String := ""
deriving DecidableEq, Repr

/-- `sppb.PlanNode`: index, kind, display name, metadata (a `structpb.Struct`
whose string-valued fields are the only ones the code reads, modelled as an
association list), child links, short representation description, and the
optional untyped execution-stats payload (a `structpb.Struct`, modelled as an
association list of string fields). -/
structure PlanNode where
  index : Nat := 0
  kind : NodeKind := .UNSPECIFIED
  displayName : String := ""
  metadata : List (String × String) := []
  childLinks : List ChildLink := []
  shortRepresentation : String := ""
  executionStats : Option (List (String × String)) := none
deriving DecidableEq, Repr

instance : Inhabited PlanNode := ⟨{}⟩

/-- `GetStringValue` of a metadata field: missing key yields `""`. -/
def metaField (m : List (String × String)) (k : String) : String :=
  (m.lookup k).getD ""

/-- `link.GetChildIndex()` — `nil` link yields `0`. -/
def linkChildIndex : Option ChildLink → Nat
  | none => 0
  | some l => l.childIndex

/-- `link.GetType()` — `nil` link yields `""`. -/
def linkType : Option ChildLink → String
  | none => ""
  | some l => l.type

/-- `strings.HasSuffix(s, suffix)` (byte suffix; equal to character suffix
on valid UTF-8). -/
def strEndsWith (s suffix : String) : Bool :=
  suffix.data.isSuffixOf s.data

/-- Byte-lexicographic string comparison, the order `sort.Strings` uses
(UTF-8 byte order coincides with code-point order). -/
def charListLe : List Char → List Char → Bool
  | [], _ => true
  | _ :: _, [] => false
  | a :: as, b :: bs => if a = b then charListLe as bs else decide (a < b)

def strLe (a b : String) : Bool := charListLe a.data b.data

/-! ## `QueryPlan` (queryplan.go) -/

/-- `QueryPlan`: the ordered node list plus the derived child-index →
parent-index map.  The Go `map[int32]int32` is modelled as an association
list where the most recent insertion is at the head (`List.lookup` finds the
newest binding first, matching Go map overwrite semantics). -/
structure QueryPlan where
  planNodes : List PlanNode
  parentMap : List (Nat × Nat)
deriving Repr

/-- Construction errors and pipeline errors. -/
inductive PlanError where
  /-- `ErrEmptyPlanNodes = errors.New("spannerplan: planNodes cannot be empty")` -/
  | emptyPlanNodes
deriving DecidableEq, Repr

/-- The one pass over every child link of every node that `New` performs to
build the parent map (`parentMap[childLink.GetChildIndex()] = planNode.GetIndex()`).
Prepending is Go-map insertion: a later binding for the same key shadows an
earlier one under `List.lookup`. -/
def buildParentMap (nodes : List PlanNode) : List (Nat × Nat) :=
  nodes.foldl
    (fun m node =>
      node.childLinks.foldl (fun m cl => (cl.childIndex, node.index) :: m) m)
    []

/-- `New(planNodes)`: fails with `ErrEmptyPlanNodes` on an empty list,
otherwise builds the parent map in one pass. -/
def New (planNodes : List PlanNode) : Except PlanError QueryPlan :=
  if planNodes.isEmpty then
    .error .emptyPlanNodes
  else
    .ok { planNodes := planNodes, parentMap := buildParentMap planNodes }

/-- `qp.planNodes[i]` — Go slice indexing; out-of-range access panics in Go,
modelled with a default node (the well-formedness hypotheses of the theorems
keep every access in range). -/
def nodeAt (qp : QueryPlan) (i : Nat) : PlanNode :=
  qp.planNodes.getD i default

/-- `GetNodeByIndex(id)`. -/
def GetNodeByIndex (qp : QueryPlan) (id : Nat) : PlanNode :=
  nodeAt qp id

/-- `GetNodeByChildLink(link)`: returns `planNodes[link.GetChildIndex()]`;
a `nil` link resolves to index `0`, the root. -/
def GetNodeByChildLink (qp : QueryPlan) (link : Option ChildLink) : PlanNode :=
  nodeAt qp (linkChildIndex link)

/-- Go map read with zero default: `qp.parentMap[index]`. -/
def parentIndexOf (qp : QueryPlan) (index : Nat) : Nat :=
  (qp.parentMap.lookup index).getD 0

/-- `GetParentNodeByChildIndex(index)`. -/
def GetParentNodeByChildIndex (qp : QueryPlan) (index : Nat) : PlanNode :=
  nodeAt qp (parentIndexOf qp index)

/-- `GetParentNodeByChildLink(link)`. -/
def GetParentNodeByChildLink (qp : QueryPlan) (link : Option ChildLink) : PlanNode :=
  GetParentNodeByChildIndex qp (linkChildIndex link)

/-- `IsVisible(link)`: the linked child's kind is `RELATIONAL`, or the link's
type is `"Scalar"`. -/
def IsVisible (qp : QueryPlan) (link : Option ChildLink) : Bool :=
  (GetNodeByChildLink qp link).kind == .RELATIONAL || linkType link == "Scalar"

/-- `VisibleChildLinks(node)`: the node's child links that pass `IsVisible`,
in original order. -/
def VisibleChildLinks (qp : QueryPlan) (node : PlanNode) : List ChildLink :=
  node.childLinks.filter (fun link => IsVisible qp (some link))

/-- `IsFunction(childLink)`: the resolved child's display name is `"Function"`. -/
def IsFunction (qp : QueryPlan) (childLink : Option ChildLink) : Bool :=
  (GetNodeByChildLink qp childLink).displayName == "Function"

/-- `IsPredicate(childLink)`: a `Function` child whose link type ends in
`"Condition"` or equals `"Split Range"`. -/
def IsPredicate (qp : QueryPlan) (childLink : Option ChildLink) : Bool :=
  if !IsFunction qp childLink then
    false
  else if strEndsWith (linkType childLink) "Condition" || linkType childLink == "Split Range" then
    true
  else
    false

/-- `GetLinkType(link)`: the link's own type when non-empty; otherwise
`"Input"` when the parent (per the parent map) is an `…Apply` operator and the
parent's first child link carries this link's child index; otherwise `""`.
The Go `parent != nil` test is always true in this model (nodes are values,
never nil pointers). -/
def GetLinkType (qp : QueryPlan) (link : Option ChildLink) : String :=
  if linkType link != "" then
    linkType link
  else
    let parent := GetParentNodeByChildLink qp link
    if strEndsWith parent.displayName "Apply" &&
        decide (0 < parent.childLinks.length) &&
        (parent.childLinks.headD {}).childIndex == linkChildIndex link then
      "Input"
    else
      ""

/-- `ResolvedChildLink`: `{ChildLink, Child}`. -/
structure ResolvedChildLink where
  childLink : ChildLink
  child : PlanNode
deriving DecidableEq, Repr

/-- `ResolveChildLink(item)`. -/
def ResolveChildLink (qp : QueryPlan) (item : ChildLink) : ResolvedChildLink :=
  { childLink := item, child := GetNodeByChildLink qp (some item) }

/-! ## Node-title formatting options (queryplan.go) -/

/-- `ExecutionMethodFormat`. -/
inductive ExecutionMethodFormat where
  | Raw
  | Angle
deriving DecidableEq, Repr

/-- `TargetMetadataFormat`. -/
inductive TargetMetadataFormat where
  | Raw
  | On
deriving DecidableEq, Repr

/-- `KnownFlagFormat`. -/
inductive KnownFlagFormat where
  | Raw
  | Label
deriving DecidableEq, Repr

/-- The `option` struct consumed by `NodeTitle` (the zero value is the state
reached when no `Option` functions are applied). -/
structure TitleOption where
  executionMethodFormat : ExecutionMethodFormat := .Raw
  targetMetadataFormat : TargetMetadataFormat := .Raw
  knownFlagFormat : KnownFlagFormat := .Raw
  compact : Bool := false
  inlineStatsFunc : Option (PlanNode → List String) := none
  hideMetadata : Bool := false

def knownBooleanFlagKeys : List String := ["Full scan", "split_ranges_aligned"]

def targetMetadataKeys : List String := ["scan_target", "distribution_table", "table"]

/-- `joinIfNotEmpty(sep, input...)`. -/
def joinIfNotEmpty (sep : String) (input : List String) : String :=
  String.intercalate sep (input.filter (fun s => s ≠ ""))

/-- `encloseIfNotEmpty(open, input, close)`. -/
def encloseIfNotEmpty (opening input closing : String) : String :=
  if input = "" then "" else opening ++ input ++ closing

/-- `strings.TrimSuffix(s, suffix)`. -/
def trimSuffix (s suffix : String) : String :=
  if strEndsWith s suffix then ⟨s.data.take (s.data.length - suffix.data.length)⟩ else s

/-- One step of the `for k, v := range metadataFields` loop in `NodeTitle`,
accumulating the `labels` and `fields` slices.  Go iterates the metadata map
in unspecified order; the model iterates the association list in order, which
is immaterial because both slices are sorted afterwards. -/
def titleMetaStep (o : TitleOption) (sep : String) (mf : List (String × String))
    (acc : List String × List String) (kv : String × String) :
    List String × List String :=
  let (labels, fields) := acc
  let k := kv.1
  let v := kv.2
  if o.targetMetadataFormat ≠ .Raw ∧ k ∈ targetMetadataKeys then acc
  else if k = "call_type" ∨ k = "iterator_type" then acc
  else if k = "scan_type" then acc
  else if k = "subquery_cluster_node" then acc
  else if k = "scan_target" then
    if o.targetMetadataFormat ≠ .Raw then acc
    else (labels, fields ++ [trimSuffix (metaField mf "scan_type") "Scan" ++ ": " ++ v])
  else if k = "execution_method" ∧ o.executionMethodFormat ≠ .Raw then acc
  else if (k = "distribution_table" ∨ k = "table") ∧ o.targetMetadataFormat ≠ .Raw then acc
  else if o.knownFlagFormat ≠ .Raw ∧ k ∈ knownBooleanFlagKeys then
    if v = "true" then (labels ++ [k], fields) else acc
  else (labels, fields ++ [k ++ ":" ++ sep ++ v])

/-- Insertion into a sorted list under the byte-lexicographic order. -/
def insertSorted (x : String) : List String → List String
  | [] => [x]
  | y :: ys => if strLe x y then x :: y :: ys else y :: insertSorted x ys

/-- `sort.Strings`: sorts lexicographically.  Any sorting algorithm produces
the same list (equal strings are indistinguishable), so a structurally
recursive insertion sort stands in for the library sort. -/
def sortStrings (l : List String) : List String :=
  l.foldr insertSorted []

/-- `NodeTitle(node, opts...)`: leading operator clause from known metadata
keys, then the optional `<execution_method>` part, then the sorted
labels/fields plus inline stats wrapped in parentheses when non-empty. -/
def NodeTitle (node : PlanNode) (o : TitleOption) : String :=
  let sep := if !o.compact then " " else ""
  let mf := node.metadata
  let executionMethod := metaField mf "execution_method"
  let target := ((targetMetadataKeys.map (metaField mf)).find? (fun v => v ≠ "")).getD ""
  let operator := joinIfNotEmpty " "
    [metaField mf "call_type",
     metaField mf "iterator_type",
     trimSuffix (metaField mf "scan_type") "Scan",
     node.displayName,
     if o.targetMetadataFormat = .On ∧ 0 < target.length then "on " ++ target else ""]
  let executionMethodPart :=
    if o.executionMethodFormat = .Angle ∧ 0 < executionMethod.length then
      "<" ++ executionMethod ++ ">"
    else ""
  let (labels, fields) :=
    if o.hideMetadata then ([], []) else mf.foldl (titleMetaStep o sep mf) ([], [])
  let inlineStats :=
    match o.inlineStatsFunc with
    | none => []
    | some f => f node
  joinIfNotEmpty sep
    [operator,
     executionMethodPart,
     encloseIfNotEmpty "("
       (String.intercalate ("," ++ sep) (sortStrings labels ++ sortStrings fields ++ inlineStats))
       ")"]

/-! ## Stats extraction (`stats` package, `Extract`) -/

/-- Modelled from the spec: the `stats.ExecutionStats` struct declaration is
not under `src/` — only its use sites (`stats.Extract`, `plantree`) are.  Per
the spec its declared members are `Rows.Total`, `ScannedRows.Total`,
`FilteredRows.Total`, `ExecutionSummary.NumExecutions`, `Latency`, `CpuTime`
and `RemoteCalls.Total`, all optional and zero-valued when absent; each
top-level declared member is modelled as an optional raw field value keyed by
its snake-case JSON name. -/
structure ExecutionStats where
  rows : Option String := none
  scannedRows : Option String := none
  filteredRows : Option String := none
  executionSummary : Option String := none
  latency : Option String := none
  cpuTime : Option String := none
  remoteCalls : Option String := none
deriving DecidableEq, Repr

/-- The JSON field names declared by the `ExecutionStats` struct. -/
def declaredStatsKeys : List String :=
  ["rows", "scanned_rows", "filtered_rows", "execution_summary", "latency",
   "cpu_time", "remote_calls"]

/-- Population of one declared struct field during JSON decoding. -/
def setStatsField (s : ExecutionStats) (k v : String) : ExecutionStats :=
  if k = "rows" then { s with rows := some v }
  else if k = "scanned_rows" then { s with scannedRows := some v }
  else if k = "filtered_rows" then { s with filteredRows := some v }
  else if k = "execution_summary" then { s with executionSummary := some v }
  else if k = "latency" then { s with latency := some v }
  else if k = "cpu_time" then { s with cpuTime := some v }
  else if k = "remote_calls" then { s with remoteCalls := some v }
  else s

/-- `StatsDecodeError`: in strict mode an unknown field aborts extraction. -/
inductive StatsError where
  | unknownField (k : String)
deriving DecidableEq, Repr

/-- The field loop of `json.Decoder.Decode` into the `ExecutionStats` struct:
declared fields are populated (a repeated key keeps the last value), an
undeclared field is dropped in lenient mode and fatal when
`DisallowUnknownFields` is set. -/
def decodeStatsFields (s : ExecutionStats) (fields : List (String × String))
    (disallowUnknownFields : Bool) : Except StatsError ExecutionStats :=
  match fields with
  | [] => .ok s
  | (k, v) :: rest =>
    if k ∈ declaredStatsKeys then
      decodeStatsFields (setStatsField s k v) rest disallowUnknownFields
    else if disallowUnknownFields then
      .error (.unknownField k)
    else
      decodeStatsFields s rest disallowUnknownFields

/-- `stats.Extract(node, disallowUnknownFields)`: the JSON re-encode/decode
round trip of `node.GetExecutionStats()`.  An absent payload marshals to
`null`, which decodes into the zero value without error. -/
def Extract (node : PlanNode) (disallowUnknownFields : Bool) :
    Except StatsError ExecutionStats :=
  match node.executionStats with
  | none => .ok {}
  | some fields => decodeStatsFields {} fields disallowUnknownFields

/-! ## JSON string codec (model of Go `encoding/json`)

`buildTree` marshals the node text and the child-link descriptor with
`json.Marshal`, and `ProcessPlan` recovers them with `json.Unmarshal`.
`encoding/json` is an external library; it is modelled here following its
documented behaviour: `Marshal` of a string escapes `"` and `\`, renders
control characters as `\n`, `\r`, `\t` or `\u00xx`, HTML-escapes `<`, `>`,
`&`, and escapes U+2028/U+2029; `Unmarshal` of a string token processes the
JSON escape sequences (including `\uXXXX` with surrogate pairs, a lone
surrogate decoding to U+FFFD) and rejects raw control characters. -/

/-- Lowercase hex digit, as `encoding/json` emits. -/
def hexDigitChar (n : Nat) : Char :=
  if n < 10 then Char.ofNat (48 + n) else Char.ofNat (87 + n)

/-- The escaping `encoding/json` applies to one character of a marshalled
string (HTML escaping on, as `json.Marshal` defaults to). -/
def jsonEscapeChar (c : Char) : List Char :=
  if c = '"' then ['\\', '"']
  else if c = '\\' then ['\\', '\\']
  else if c = '\n' then ['\\', 'n']
  else if c = '\r' then ['\\', 'r']
  else if c = '\t' then ['\\', 't']
  else if c.toNat < 0x20 ∨ c = '<' ∨ c = '>' ∨ c = '&' then
    ['\\', 'u', '0', '0', hexDigitChar (c.toNat / 16), hexDigitChar (c.toNat % 16)]
  else if c = ' ' ∨ c = ' ' then
    ['\\', 'u', '2', '0', '2', hexDigitChar (c.toNat % 16)]
  else [c]

/-- `json.Marshal` of a string value. -/
def jsonEncodeString (s : List Char) : List Char :=
  '"' :: (s.flatMap jsonEscapeChar ++ ['"'])

/-- Value of one hex digit (`getu4` accepts both cases). -/
def hexVal (c : Char) : Option Nat :=
  if '0' ≤ c ∧ c ≤ '9' then some (c.toNat - 48)
  else if 'a' ≤ c ∧ c ≤ 'f' then some (c.toNat - 87)
  else if 'A' ≤ c ∧ c ≤ 'F' then some (c.toNat - 55)
  else none

/-- Value of a `\uXXXX` escape's four hex digits. -/
def hexVal4 (a b c d : Char) : Option Nat :=
  match hexVal a, hexVal b, hexVal c, hexVal d with
  | some a, some b, some c, some d => some (((a * 16 + b) * 16 + c) * 16 + d)
  | _, _, _, _ => none

/-- Scanner state of the JSON string-literal decoder: a one-pass
reformulation of `encoding/json`'s `unquote` loop (which looks ahead after a
surrogate escape), consuming exactly one character per step. -/
inductive JState where
  /-- ordinary scanning -/
  | normal
  /-- just after a backslash -/
  | esc
  /-- inside `\uXXXX`: accumulated value and number of digits read -/
  | hex (acc : Nat) (n : Nat)
  /-- a `\uXXXX` escape yielded the surrogate value `h`; `encoding/json`
  combines it with an immediately following low-surrogate escape, else emits
  U+FFFD -/
  | sawSur (h : Nat)
  /-- surrogate pending with a backslash just read -/
  | sawSurB (h : Nat)
  /-- surrogate pending, inside the second `\uXXXX` -/
  | hexP (h : Nat) (acc : Nat) (n : Nat)
deriving DecidableEq, Repr

/-- Scanning of a JSON string literal's body after the opening quote:
returns the decoded content and the remainder after the closing quote.
Models `encoding/json`'s `unquote`: escape sequences are processed, a
`\uXXXX` surrogate pair is combined, a lone or mismatched surrogate becomes
U+FFFD (a mismatched second escape is then rescanned on its own, as the Go
loop does by not consuming it), and a raw control character is rejected. -/
def scanJsonBody : JState → List Char → Option (List Char × List Char)
  | _, [] => none
  | .normal, c :: rest =>
    if c = '"' then some ([], rest)
    else if c = '\\' then scanJsonBody .esc rest
    else if c.toNat < 0x20 then none
    else (scanJsonBody .normal rest).map (fun p => (c :: p.1, p.2))
  | .esc, c :: rest =>
    if c = '"' then (scanJsonBody .normal rest).map (fun p => ('"' :: p.1, p.2))
    else if c = '\\' then (scanJsonBody .normal rest).map (fun p => ('\\' :: p.1, p.2))
    else if c = '/' then (scanJsonBody .normal rest).map (fun p => ('/' :: p.1, p.2))
    else if c = 'b' then (scanJsonBody .normal rest).map (fun p => (Char.ofNat 8 :: p.1, p.2))
    else if c = 'f' then (scanJsonBody .normal rest).map (fun p => (Char.ofNat 12 :: p.1, p.2))
    else if c = 'n' then (scanJsonBody .normal rest).map (fun p => ('\n' :: p.1, p.2))
    else if c = 'r' then (scanJsonBody .normal rest).map (fun p => ('\x0d' :: p.1, p.2))
    else if c = 't' then (scanJsonBody .normal rest).map (fun p => ('\t' :: p.1, p.2))
    else if c = 'u' then scanJsonBody (.hex 0 0) rest
    else none
  | .hex acc n, c :: rest =>
    match hexVal c with
    | none => none
    | some d =>
      if n = 3 then
        let r := acc * 16 + d
        if 0xD800 ≤ r ∧ r < 0xE000 then scanJsonBody (.sawSur r) rest
        else (scanJsonBody .normal rest).map (fun p => (Char.ofNat r :: p.1, p.2))
      else scanJsonBody (.hex (acc * 16 + d) (n + 1)) rest
  | .sawSur h, c :: rest =>
    if c = '\\' then scanJsonBody (.sawSurB h) rest
    else if c = '"' then some ([Char.ofNat 0xFFFD], rest)
    else if c.toNat < 0x20 then none
    else (scanJsonBody .normal rest).map (fun p => (Char.ofNat 0xFFFD :: c :: p.1, p.2))
  | .sawSurB h, c :: rest =>
    if c = 'u' then scanJsonBody (.hexP h 0 0) rest
    else if c = '"' then
      (scanJsonBody .normal rest).map (fun p => (Char.ofNat 0xFFFD :: '"' :: p.1, p.2))
    else if c = '\\' then
      (scanJsonBody .normal rest).map (fun p => (Char.ofNat 0xFFFD :: '\\' :: p.1, p.2))
    else if c = '/' then
      (scanJsonBody .normal rest).map (fun p => (Char.ofNat 0xFFFD :: '/' :: p.1, p.2))
    else if c = 'b' then
      (scanJsonBody .normal rest).map (fun p => (Char.ofNat 0xFFFD :: Char.ofNat 8 :: p.1, p.2))
    else if c = 'f' then
      (scanJsonBody .normal rest).map (fun p => (Char.ofNat 0xFFFD :: Char.ofNat 12 :: p.1, p.2))
    else if c = 'n' then
      (scanJsonBody .normal rest).map (fun p => (Char.ofNat 0xFFFD :: '\n' :: p.1, p.2))
    else if c = 'r' then
      (scanJsonBody .normal rest).map (fun p => (Char.ofNat 0xFFFD :: '\x0d' :: p.1, p.2))
    else if c = 't' then
      (scanJsonBody .normal rest).map (fun p => (Char.ofNat 0xFFFD :: '\t' :: p.1, p.2))
    else none
  | .hexP h acc n, c :: rest =>
    match hexVal c with
    | none => none
    | some d =>
      if n = 3 then
        let r2 := acc * 16 + d
        if h < 0xDC00 ∧ 0xDC00 ≤ r2 then
          (scanJsonBody .normal rest).map
            (fun p => (Char.ofNat (0x10000 + (h - 0xD800) * 0x400 + (r2 - 0xDC00)) :: p.1, p.2))
        else if 0xD800 ≤ r2 ∧ r2 < 0xE000 then
          (scanJsonBody (.sawSur r2) rest).map (fun p => (Char.ofNat 0xFFFD :: p.1, p.2))
        else
          (scanJsonBody .normal rest).map
            (fun p => (Char.ofNat 0xFFFD :: Char.ofNat r2 :: p.1, p.2))
      else scanJsonBody (.hexP h (acc * 16 + d) (n + 1)) rest

/-- `json.Unmarshal` of a complete input into a `string` target: a string
token with nothing after it. -/
def jsonDecodeString (s : List Char) : Option (List Char) :=
  match s with
  | '"' :: rest =>
    match scanJsonBody .normal rest with
    | some (content, []) => some content
    | _ => none
  | _ => none

/-! ### Round trip of the string codec -/

theorem hexVal_hexDigitChar_fin : ∀ n : Fin 16, hexVal (hexDigitChar n.val) = some n.val := by
  decide

theorem hexVal_hexDigitChar {n : Nat} (h : n < 16) :
    hexVal (hexDigitChar n) = some n :=
  hexVal_hexDigitChar_fin ⟨n, h⟩

theorem hexDigitChar_ge_fin : ∀ n : Fin 16, 0x20 ≤ (hexDigitChar n.val).toNat := by
  decide

theorem hexDigitChar_ge {n : Nat} (h : n < 16) : 0x20 ≤ (hexDigitChar n).toNat :=
  hexDigitChar_ge_fin ⟨n, h⟩

/-- Scanning the escape of one character prepends that character: the key
step of the string-codec round trip. -/
theorem scanJsonBody_escape (c : Char) (t : List Char) :
    scanJsonBody .normal (jsonEscapeChar c ++ t) =
      (scanJsonBody .normal t).map (fun p => (c :: p.1, p.2)) := by
  by_cases h1 : c = '"'
  · subst h1; simp [jsonEscapeChar, scanJsonBody]
  by_cases h2 : c = '\\'
  · subst h2; simp [jsonEscapeChar, scanJsonBody]
  by_cases h3 : c = '\n'
  · subst h3; simp [jsonEscapeChar, scanJsonBody]
  by_cases h4 : c = '\x0d'
  · subst h4; simp [jsonEscapeChar, scanJsonBody]
  by_cases h5 : c = '\t'
  · subst h5; simp [jsonEscapeChar, scanJsonBody]
  by_cases h6 : c.toNat < 0x20 ∨ c = '<' ∨ c = '>' ∨ c = '&'
  · have hle : c.toNat ≤ 62 := by
      rcases h6 with h | h | h | h
      · omega
      all_goals (subst h; decide)
    have hdiv : c.toNat / 16 < 16 := by omega
    have hmod : c.toNat % 16 < 16 := by omega
    have henc : jsonEscapeChar c =
        ['\\', 'u', '0', '0', hexDigitChar (c.toNat / 16), hexDigitChar (c.toNat % 16)] := by
      simp [jsonEscapeChar, h1, h2, h3, h4, h5, h6]
    rw [henc]
    simp only [List.cons_append, List.nil_append, scanJsonBody,
      show hexVal '0' = some 0 by decide, hexVal_hexDigitChar hdiv, hexVal_hexDigitChar hmod]
    have hval : c.toNat / 16 * 16 + c.toNat % 16 = c.toNat := by omega
    simp [hval, show ¬ (0xD800 ≤ c.toNat ∧ c.toNat < 0xE000) by omega, Char.ofNat_toNat]
  by_cases h7 : c = ' ' ∨ c = ' '
  · rcases h7 with h | h <;> subst h
    · rw [show jsonEscapeChar ' ' = ['\\', 'u', '2', '0', '2', '8'] from by decide]
      simp [scanJsonBody, show hexVal '2' = some 2 from by decide,
        show hexVal '0' = some 0 from by decide, show hexVal '8' = some 8 from by decide,
        show Char.ofNat 8232 = ' ' from by decide]
    · rw [show jsonEscapeChar ' ' = ['\\', 'u', '2', '0', '2', '9'] from by decide]
      simp [scanJsonBody, show hexVal '2' = some 2 from by decide,
        show hexVal '0' = some 0 from by decide, show hexVal '9' = some 9 from by decide,
        show Char.ofNat 8233 = ' ' from by decide]
  · have henc : jsonEscapeChar c = [c] := by
      simp [jsonEscapeChar, h1, h2, h3, h4, h5, h6, h7]
    have hge : ¬ c.toNat < 0x20 := by
      intro hc; exact h6 (Or.inl hc)
    simp [henc, scanJsonBody, h1, h2, hge]

/-- Scanning the whole escaped body up to the closing quote yields the
original string and the remainder. -/
theorem scanJsonBody_encoded (s t : List Char) :
    scanJsonBody .normal (s.flatMap jsonEscapeChar ++ '"' :: t) = some (s, t) := by
  induction s with
  | nil => simp [scanJsonBody]
  | cons c s ih =>
    rw [List.flatMap_cons, List.append_assoc, scanJsonBody_escape, ih]
    rfl

/-- Round trip of the modelled `encoding/json` string codec: unmarshalling a
marshalled string recovers it exactly, whatever characters it contains. -/
theorem jsonDecodeString_encodeString (s : List Char) :
    jsonDecodeString (jsonEncodeString s) = some s := by
  unfold jsonEncodeString jsonDecodeString
  rw [show '"' :: (s.flatMap jsonEscapeChar ++ ['"']) =
      '"' :: (s.flatMap jsonEscapeChar ++ '"' :: []) from rfl]
  simp [scanJsonBody_encoded]

/-- Every character that `jsonEscapeChar` emits is at code point `0x20` or
above: in particular the marshalled text contains no raw tab, newline or null
byte. -/
theorem jsonEscapeChar_ge (c x : Char) (hx : x ∈ jsonEscapeChar c) :
    0x20 ≤ x.toNat := by
  unfold jsonEscapeChar at hx
  by_cases h1 : c = '"'
  · subst h1; simp at hx; rcases hx with rfl | rfl <;> decide
  by_cases h2 : c = '\\'
  · subst h2; simp at hx; rcases hx with rfl | rfl <;> decide
  by_cases h3 : c = '\n'
  · subst h3; simp at hx; rcases hx with rfl | rfl <;> decide
  by_cases h4 : c = '\x0d'
  · subst h4; simp at hx; rcases hx with rfl | rfl <;> decide
  by_cases h5 : c = '\t'
  · subst h5; simp at hx; rcases hx with rfl | rfl <;> decide
  by_cases h6 : c.toNat < 0x20 ∨ c = '<' ∨ c = '>' ∨ c = '&'
  · have hle : c.toNat ≤ 62 := by
      rcases h6 with h | h | h | h
      · omega
      all_goals (subst h; decide)
    have hdiv : c.toNat / 16 < 16 := by omega
    have hmod : c.toNat % 16 < 16 := by omega
    simp [h1, h2, h3, h4, h5, h6] at hx
    rcases hx with rfl | rfl | rfl | rfl | rfl
    · decide
    · decide
    · decide
    · exact hexDigitChar_ge hdiv
    · exact hexDigitChar_ge hmod
  by_cases h7 : c = ' ' ∨ c = ' '
  · have hmod : c.toNat % 16 < 16 := by omega
    simp [h1, h2, h3, h4, h5, h6, h7] at hx
    rcases hx with rfl | rfl | rfl | rfl | rfl | rfl
    · decide
    · decide
    · decide
    · decide
    · decide
    · exact hexDigitChar_ge hmod
  · simp [h1, h2, h3, h4, h5, h6, h7] at hx
    rw [hx]
    have hge : ¬ c.toNat < 0x20 := fun hc => h6 (Or.inl hc)
    omega

/-- The body of a marshalled string contains none of the three sentinel
characters of the payload encoding. -/
theorem jsonEncodeString_no_sentinel (s : List Char) (x : Char)
    (hx : x ∈ jsonEncodeString s) :
    x ≠ '\t' ∧ x ≠ '\n' ∧ x ≠ Char.ofNat 0 := by
  unfold jsonEncodeString at hx
  have hge : 0x20 ≤ x.toNat := by
    rcases List.mem_cons.mp hx with h | h
    · subst h; decide
    rcases List.mem_append.mp h with h | h
    · obtain ⟨c, _, hc⟩ := List.mem_flatMap.mp h
      exact jsonEscapeChar_ge c x hc
    · simp at h; subst h; decide
  refine ⟨?_, ?_, ?_⟩ <;> (intro he; subst he; simp at hge)

/-! ## Decimal codec (model of `encoding/json` number formatting/scanning)

`json.Marshal` renders the `int32` `child_index` field in decimal;
`json.Unmarshal` reads it back.  Child indices are non-negative in every
loader-produced plan, so the codec is modelled on `Nat`. -/

/-- One decimal digit character. -/
def digitChar10 (d : Nat) : Char := Char.ofNat (48 + d)

/-- Little-endian base-10 digits, fuel-indexed so that the kernel can
evaluate it (the fuel `n` always suffices). -/
def natDigitsAux : Nat → Nat → List Nat
  | 0, _ => []
  | _ + 1, 0 => []
  | fuel + 1, n + 1 => ((n + 1) % 10) :: natDigitsAux fuel ((n + 1) / 10)

/-- Little-endian base-10 digits. -/
def natDigits (n : Nat) : List Nat := natDigitsAux n n

theorem natDigitsAux_eq_digits : ∀ fuel n, n ≤ fuel → natDigitsAux fuel n = Nat.digits 10 n := by
  intro fuel
  induction fuel with
  | zero =>
    intro n h
    interval_cases n
    simp [natDigitsAux]
  | succ f ih =>
    intro n h
    cases n with
    | zero => simp [natDigitsAux]
    | succ m =>
      rw [show natDigitsAux (f + 1) (m + 1) = ((m + 1) % 10) :: natDigitsAux f ((m + 1) / 10)
        from rfl]
      rw [ih ((m + 1) / 10) (by omega)]
      rw [Nat.digits_def' (by norm_num : 1 < 10) (Nat.succ_pos m)]

theorem natDigits_eq_digits (n : Nat) : natDigits n = Nat.digits 10 n :=
  natDigitsAux_eq_digits n n (Nat.le_refl n)

/-- Decimal rendering of a natural number (big-endian digits). -/
def natToDec (n : Nat) : List Char :=
  if n = 0 then ['0'] else ((natDigits n).map digitChar10).reverse

/-- `natToDec` in terms of `Nat.digits`, for the proofs below. -/
theorem natToDec_eq (n : Nat) :
    natToDec n = if n = 0 then ['0'] else ((Nat.digits 10 n).map digitChar10).reverse := by
  rw [natToDec, natDigits_eq_digits]

/-- Digit-accumulation loop of the number scanner: consumes the maximal
digit prefix. -/
def parseNatAux : Nat → List Char → Nat × List Char
  | acc, [] => (acc, [])
  | acc, c :: rest =>
    if c.isDigit then parseNatAux (acc * 10 + (c.toNat - 48)) rest else (acc, c :: rest)

/-- Number scanning: at least one digit, maximal munch. -/
def parseNat : List Char → Option (Nat × List Char)
  | [] => none
  | c :: rest => if c.isDigit then some (parseNatAux (c.toNat - 48) rest) else none

theorem digitChar10_fin :
    ∀ d : Fin 10, (digitChar10 d.val).isDigit = true ∧ (digitChar10 d.val).toNat = 48 + d.val := by
  decide

theorem digitChar10_isDigit {d : Nat} (h : d < 10) : (digitChar10 d).isDigit = true :=
  (digitChar10_fin ⟨d, h⟩).1

theorem digitChar10_toNat {d : Nat} (h : d < 10) : (digitChar10 d).toNat = 48 + d :=
  (digitChar10_fin ⟨d, h⟩).2

theorem parseNatAux_append (ds : List Char) :
    ∀ (t : List Char) (acc : Nat), (∀ c ∈ ds, c.isDigit = true) →
      (∀ c, t.head? = some c → c.isDigit = false) →
      parseNatAux acc (ds ++ t) =
        (ds.foldl (fun a c => a * 10 + (c.toNat - 48)) acc, t) := by
  induction ds with
  | nil =>
    intro t acc _ ht
    cases t with
    | nil => rfl
    | cons c r =>
      have := ht c rfl
      simp [parseNatAux, this]
  | cons c ds ih =>
    intro t acc hds ht
    have hc : c.isDigit = true := hds c (List.mem_cons_self c ds)
    simp only [List.cons_append, parseNatAux, hc, if_true, List.foldl_cons]
    exact ih t _ (fun x hx => hds x (List.mem_cons_of_mem c hx)) ht

theorem foldl_digitChar10 (L : List Nat) (hL : ∀ d ∈ L, d < 10) :
    ∀ acc : Nat, (L.map digitChar10).foldl (fun a c => a * 10 + (c.toNat - 48)) acc =
      L.foldl (fun a d => a * 10 + d) acc := by
  induction L with
  | nil => intro acc; rfl
  | cons d L ih =>
    intro acc
    simp only [List.map_cons, List.foldl_cons]
    rw [digitChar10_toNat (hL d (List.mem_cons_self d L))]
    rw [ih (fun x hx => hL x (List.mem_cons_of_mem d hx))]
    congr 1
    omega

theorem revFold_ofDigits (L : List Nat) :
    ∀ acc : Nat, L.reverse.foldl (fun a d => a * 10 + d) acc =
      acc * 10 ^ L.length + Nat.ofDigits 10 L := by
  induction L with
  | nil => intro acc; simp
  | cons d L ih =>
    intro acc
    simp only [List.reverse_cons, List.foldl_append, List.foldl_cons, List.foldl_nil, ih,
      List.length_cons, Nat.ofDigits_cons]
    ring

/-- Scanning the decimal rendering (followed by a non-digit) recovers the
number: the `child_index` round trip. -/
theorem parseNat_natToDec (n : Nat) (t : List Char)
    (ht : ∀ c, t.head? = some c → c.isDigit = false) :
    parseNat (natToDec n ++ t) = some (n, t) := by
  by_cases h0 : n = 0
  · subst h0
    cases t with
    | nil => rfl
    | cons c r =>
      have := ht c rfl
      simp [natToDec_eq, parseNat, parseNatAux, this]
  · have hdig : ∀ c ∈ natToDec n, c.isDigit = true := by
      intro c hc
      simp only [natToDec_eq, h0, if_false, List.mem_reverse, List.mem_map] at hc
      obtain ⟨d, hd, rfl⟩ := hc
      exact digitChar10_isDigit (Nat.digits_lt_base (by norm_num) hd)
    have hne : natToDec n ≠ [] := by
      simp only [natToDec_eq, h0, if_false]
      intro h
      have : Nat.digits 10 n = [] := by
        rcases List.map_eq_nil_iff.mp (List.reverse_eq_nil_iff.mp h) with h'
        exact h'
      exact h0 (Nat.digits_eq_nil_iff_eq_zero.mp this)
    obtain ⟨c, ds, hcds⟩ := List.exists_cons_of_ne_nil hne
    have hfold : (natToDec n).foldl (fun a c => a * 10 + (c.toNat - 48)) 0 = n := by
      have hlt : ∀ d ∈ Nat.digits 10 n, d < 10 :=
        fun d hd => Nat.digits_lt_base (by norm_num) hd
      have hmapfold :
          ((Nat.digits 10 n).map digitChar10).reverse.foldl
              (fun a c => a * 10 + (c.toNat - 48)) 0 =
            (Nat.digits 10 n).reverse.foldl (fun a d => a * 10 + d) 0 := by
        rw [← List.map_reverse]
        exact foldl_digitChar10 _ (fun d hd => hlt d (List.mem_reverse.mp hd)) 0
      simp only [natToDec_eq, h0, if_false, hmapfold, revFold_ofDigits, Nat.zero_mul,
        Nat.zero_add]
      exact Nat.ofDigits_digits 10 n
    have hc : c.isDigit = true := hdig c (by rw [hcds]; exact List.mem_cons_self c ds)
    have hds : ∀ x ∈ ds, x.isDigit = true := by
      intro x hx
      exact hdig x (by rw [hcds]; exact List.mem_cons_of_mem c hx)
    rw [hcds]
    simp only [List.cons_append, parseNat, hc, if_true]
    rw [parseNatAux_append ds t _ hds ht]
    rw [hcds] at hfold
    simp only [List.foldl_cons, Nat.zero_mul, Nat.zero_add] at hfold
    rw [hfold]

/-- Decimal digits are ordinary printable characters: no sentinel characters
appear in a rendered number. -/
theorem natToDec_ge (n : Nat) (x : Char) (hx : x ∈ natToDec n) : 0x20 ≤ x.toNat := by
  by_cases h0 : n = 0
  · subst h0; simp [natToDec_eq] at hx; subst hx; decide
  · simp only [natToDec_eq, h0, if_false, List.mem_reverse, List.mem_map] at hx
    obtain ⟨d, hd, rfl⟩ := hx
    have := digitChar10_toNat (Nat.digits_lt_base (by norm_num) hd)
    omega

/-! ## Link-descriptor codec (model of `encoding/json` on `sppb.PlanNode_ChildLink`)

`buildTree` marshals the child link itself (`json.Marshal(link)`); the
generated struct fields carry the JSON tags `child_index,omitempty`,
`type,omitempty` and `variable,omitempty`, in that order, so the canonical
encoding is an object with the non-zero fields in declaration order (`nil`
marshals to `null`).  `ProcessPlan` unmarshals the descriptor back into a
`sppb.PlanNode_ChildLink`; the decoder below accepts the canonical grammar
and rejects everything else. -/

/-- A JSON scalar value as it appears in a link descriptor. -/
inductive JsonVal where
  | str (s : List Char)
  | num (n : Nat)
deriving DecidableEq, Repr

/-- Rendered form of a scalar value. -/
def renderVal : JsonVal → List Char
  | .str s => jsonEncodeString s
  | .num n => natToDec n

/-- `"key":` -/
def quoteKey (k : List Char) : List Char := '"' :: k ++ ['"', ':']

/-- A rendered field. -/
def renderField (kv : List Char × JsonVal) : List Char :=
  quoteKey kv.1 ++ renderVal kv.2

/-- Comma-joined rendered fields, as `json.Marshal` lays an object out. -/
def joinFields : List (List Char) → List Char
  | [] => []
  | [f] => f
  | f :: fs => f ++ ',' :: joinFields fs

/-- The fields `json.Marshal` emits for a child link: non-zero fields in
struct declaration order (`omitempty` drops a zero `child_index`, an empty
`type` and an empty `variable`). -/
def canonicalFields (l : ChildLink) : List (List Char × JsonVal) :=
  (if l.childIndex = 0 then [] else [("child_index".toList, .num l.childIndex)]) ++
  (if l.type = "" then [] else [("type".toList, .str l.type.toList)]) ++
  (if l.var = "" then [] else [("variable".toList, .str l.var.toList)])

/-- `json.Marshal` of a `*sppb.PlanNode_ChildLink`: `null` for `nil`,
otherwise the canonical object. -/
def encodeLink : Option ChildLink → List Char
  | none => "null".toList
  | some l => '{' :: (joinFields ((canonicalFields l).map renderField) ++ ['}'])

/-- Scanning of one field value: a string token or a number token. -/
def parseValue (s : List Char) : Option (JsonVal × List Char) :=
  match s with
  | [] => none
  | c :: rest =>
    if c = '"' then (scanJsonBody .normal rest).map (fun p => (.str p.1, p.2))
    else
      match parseNat (c :: rest) with
      | some (n, r) => some (.num n, r)
      | none => none

/-- Population of one struct field during `json.Unmarshal` of the link
descriptor: a declared key must carry a value of the declared type, an
unknown key is ignored. -/
def assignLinkField (acc : ChildLink) (key : List Char) (v : JsonVal) : Option ChildLink :=
  if key = "child_index".toList then
    match v with
    | .num n => some { acc with childIndex := n }
    | .str _ => none
  else if key = "type".toList then
    match v with
    | .str s => some { acc with type := ⟨s⟩ }
    | .num _ => none
  else if key = "variable".toList then
    match v with
    | .str s => some { acc with var := ⟨s⟩ }
    | .num _ => none
  else some acc

/-- The object-field loop of `json.Unmarshal` for the link descriptor
(fuel-indexed; the top-level call supplies enough fuel for any input since
every field consumes at least one character). -/
def parseLinkFieldsF : Nat → List Char → ChildLink → Option ChildLink
  | 0, _, _ => none
  | fuel + 1, s, acc =>
    match s with
    | '}' :: rest => if rest.isEmpty then some acc else none
    | '"' :: rest =>
      match scanJsonBody .normal rest with
      | none => none
      | some (key, r1) =>
        match r1 with
        | ':' :: r2 =>
          match parseValue r2 with
          | none => none
          | some (v, r3) =>
            match assignLinkField acc key v with
            | none => none
            | some acc2 =>
              match r3 with
              | ',' :: r4 => parseLinkFieldsF fuel r4 acc2
              | '}' :: r4 => if r4.isEmpty then some acc2 else none
              | _ => none
        | _ => none
    | _ => none

/-- `json.Unmarshal` of a complete input into a `sppb.PlanNode_ChildLink`:
`null` leaves the zero value, otherwise an object whose declared fields must
have the declared types. -/
def decodeLink (s : List Char) : Option ChildLink :=
  if s = "null".toList then some {}
  else
    match s with
    | '{' :: rest => parseLinkFieldsF (rest.length + 1) rest {}
    | _ => none

/-! ### Round trip of the link codec -/

theorem parseValue_str (s t : List Char) :
    parseValue (jsonEncodeString s ++ t) = some (.str s, t) := by
  have : jsonEncodeString s ++ t = '"' :: (s.flatMap jsonEscapeChar ++ '"' :: t) := by
    simp [jsonEncodeString]
  rw [this]
  simp [parseValue, scanJsonBody_encoded]

theorem natToDec_head_isDigit (n : Nat) :
    ∃ c ds, natToDec n = c :: ds ∧ c.isDigit = true := by
  by_cases h0 : n = 0
  · subst h0; exact ⟨'0', [], rfl, by decide⟩
  · have hdig : ∀ c ∈ natToDec n, c.isDigit = true := by
      intro c hc
      simp only [natToDec_eq, h0, if_false, List.mem_reverse, List.mem_map] at hc
      obtain ⟨d, hd, rfl⟩ := hc
      exact digitChar10_isDigit (Nat.digits_lt_base (by norm_num) hd)
    have hne : natToDec n ≠ [] := by
      simp only [natToDec_eq, h0, if_false]
      intro h
      have h' : Nat.digits 10 n = [] :=
        List.map_eq_nil_iff.mp (List.reverse_eq_nil_iff.mp h)
      exact h0 (Nat.digits_eq_nil_iff_eq_zero.mp h')
    obtain ⟨c, ds, hcds⟩ := List.exists_cons_of_ne_nil hne
    exact ⟨c, ds, hcds, hdig c (by rw [hcds]; exact List.mem_cons_self c ds)⟩

theorem parseValue_num (n : Nat) (t : List Char)
    (ht : ∀ c, t.head? = some c → c.isDigit = false) :
    parseValue (natToDec n ++ t) = some (.num n, t) := by
  obtain ⟨c, ds, hcds, hc⟩ := natToDec_head_isDigit n
  have hq : c ≠ '"' := by
    intro h; subst h; simp [Char.isDigit] at hc
  have hp := parseNat_natToDec n t ht
  rw [hcds]
  rw [hcds] at hp
  simp only [List.cons_append] at hp ⊢
  simp only [parseValue]
  rw [if_neg hq, hp]

/-- Continuation of the object-field loop after one field has been read:
fail on a failed assignment, recurse after a comma, finish at the closing
brace. -/
def fieldCont (fuel : Nat) (res : Option ChildLink) (t : List Char) : Option ChildLink :=
  match res with
  | none => none
  | some acc2 =>
    match t with
    | ',' :: r4 => parseLinkFieldsF fuel r4 acc2
    | '}' :: r4 => if r4.isEmpty then some acc2 else none
    | _ => none

/-- Processing of one canonically rendered field by the object-field loop. -/
theorem parseLink_one_field (fuel : Nat) (k : List Char) (v : JsonVal) (t : List Char)
    (acc : ChildLink)
    (hk : k.flatMap jsonEscapeChar = k)
    (hval : parseValue (renderVal v ++ t) = some (v, t)) :
    parseLinkFieldsF (fuel + 1) (quoteKey k ++ (renderVal v ++ t)) acc =
      fieldCont fuel (assignLinkField acc k v) t := by
  have harr : quoteKey k ++ (renderVal v ++ t) =
      '"' :: (k.flatMap jsonEscapeChar ++ '"' :: (':' :: (renderVal v ++ t))) := by
    rw [hk]
    simp [quoteKey]
  rw [harr]
  simp only [parseLinkFieldsF]
  rw [scanJsonBody_encoded]
  simp only [hval]
  rfl

/-- Whether a value's canonical rendering scans back to itself in front of
any continuation that starts with a comma or a closing brace. -/
def ValRoundtrips (v : JsonVal) : Prop :=
  ∀ t : List Char, (t.head? = some ',' ∨ t.head? = some '}') →
    parseValue (renderVal v ++ t) = some (v, t)

theorem valRoundtrips_str (s : List Char) : ValRoundtrips (.str s) :=
  fun t _ => parseValue_str s t

theorem valRoundtrips_num (n : Nat) : ValRoundtrips (.num n) := by
  intro t ht
  refine parseValue_num n t ?_
  intro c hc
  rcases ht with h | h <;> (rw [hc] at h; cases h; decide)

/-- The object-field loop over a list of canonically rendered fields folds
the assignments left to right. -/
theorem parseFields_canonical (fs : List (List Char × JsonVal)) :
    ∀ (acc : ChildLink) (fuel : Nat), fs.length ≤ fuel →
      (∀ kv ∈ fs, kv.1.flatMap jsonEscapeChar = kv.1 ∧
        (∀ a : ChildLink, (assignLinkField a kv.1 kv.2).isSome) ∧ ValRoundtrips kv.2) →
      parseLinkFieldsF (fuel + 1) (joinFields (fs.map renderField) ++ ['}']) acc =
        some (fs.foldl (fun a kv => (assignLinkField a kv.1 kv.2).getD a) acc) := by
  induction fs with
  | nil =>
    intro acc fuel _ _
    simp [joinFields, parseLinkFieldsF]
  | cons kv fs ih =>
    intro acc fuel hfuel hprops
    obtain ⟨hk, hassign, hval⟩ := hprops kv (List.mem_cons_self kv fs)
    obtain ⟨fuel', rfl⟩ : ∃ f, fuel = f + 1 := by
      cases fuel with
      | zero => simp at hfuel
      | succ f => exact ⟨f, rfl⟩
    cases fs with
    | nil =>
      have hjoin : joinFields ([kv].map renderField) ++ ['}'] =
          quoteKey kv.1 ++ (renderVal kv.2 ++ ['}']) := by
        simp [joinFields, renderField]
      rw [hjoin]
      rw [parseLink_one_field (fuel' + 1) kv.1 kv.2 ['}'] acc hk (hval ['}'] (Or.inr rfl))]
      obtain ⟨acc2, hacc2⟩ := Option.isSome_iff_exists.mp (hassign acc)
      rw [hacc2]
      show some acc2 = _
      simp [hacc2]
    | cons kv2 fs2 =>
      have hjoin : joinFields ((kv :: kv2 :: fs2).map renderField) ++ ['}'] =
          quoteKey kv.1 ++ (renderVal kv.2 ++
            (',' :: (joinFields ((kv2 :: fs2).map renderField) ++ ['}']))) := by
        simp [joinFields, renderField]
      rw [hjoin]
      rw [parseLink_one_field (fuel' + 1) kv.1 kv.2
        (',' :: (joinFields ((kv2 :: fs2).map renderField) ++ ['}'])) acc hk
        (hval (',' :: (joinFields ((kv2 :: fs2).map renderField) ++ ['}'])) (Or.inl rfl))]
      obtain ⟨acc2, hacc2⟩ := Option.isSome_iff_exists.mp (hassign acc)
      rw [hacc2]
      show parseLinkFieldsF (fuel' + 1) (joinFields ((kv2 :: fs2).map renderField) ++ ['}']) acc2 =
        some ((kv :: kv2 :: fs2).foldl (fun a kv => (assignLinkField a kv.1 kv.2).getD a) acc)
      have hfuel' : (kv2 :: fs2).length ≤ fuel' := by
        simp only [List.length_cons] at hfuel ⊢
        omega
      rw [ih acc2 fuel' hfuel' (fun kv' hkv' => hprops kv' (List.mem_cons_of_mem kv hkv'))]
      simp [hacc2]

theorem joinFields_length (fs : List (List Char × JsonVal)) :
    fs.length ≤ (joinFields (fs.map renderField) ++ ['}']).length := by
  induction fs with
  | nil => simp [joinFields]
  | cons kv fs ih =>
    cases fs with
    | nil => simp [joinFields]
    | cons kv2 fs2 =>
      have hj : joinFields ((kv :: kv2 :: fs2).map renderField) =
          renderField kv ++ ',' :: joinFields ((kv2 :: fs2).map renderField) := by
        simp [joinFields]
      rw [hj]
      simp only [List.length_cons, List.length_append] at ih ⊢
      omega

/-- Membership facts about the canonical field list of a link. -/
theorem canonicalFields_props (l : ChildLink) :
    ∀ kv ∈ canonicalFields l, kv.1.flatMap jsonEscapeChar = kv.1 ∧
      (∀ a : ChildLink, (assignLinkField a kv.1 kv.2).isSome) ∧ ValRoundtrips kv.2 := by
  intro kv hkv
  simp only [canonicalFields, List.mem_append] at hkv
  have hcases : kv = ("child_index".toList, JsonVal.num l.childIndex) ∨
      kv = ("type".toList, JsonVal.str l.type.toList) ∨
      kv = ("variable".toList, JsonVal.str l.var.toList) := by
    rcases hkv with (h | h) | h
    · left
      revert h
      split
      · simp
      · simp
    · right; left
      revert h
      split
      · simp
      · simp
    · right; right
      revert h
      split
      · simp
      · simp
  rcases hcases with rfl | rfl | rfl
  · refine ⟨?_, fun a => by simp [assignLinkField], valRoundtrips_num _⟩
    show "child_index".toList.flatMap jsonEscapeChar = "child_index".toList
    decide
  · refine ⟨?_, fun a => ?_, valRoundtrips_str _⟩
    · show "type".toList.flatMap jsonEscapeChar = "type".toList
      decide
    · simp [assignLinkField, show ("type".toList = "child_index".toList) = False from by decide]
  · refine ⟨?_, fun a => ?_, valRoundtrips_str _⟩
    · show "variable".toList.flatMap jsonEscapeChar = "variable".toList
      decide
    · simp [assignLinkField,
        show ("variable".toList = "child_index".toList) = False from by decide,
        show ("variable".toList = "type".toList) = False from by decide]

/-- Folding the canonical field assignments over the zero value rebuilds the
link. -/
theorem foldl_canonicalFields (l : ChildLink) :
    (canonicalFields l).foldl (fun a kv => (assignLinkField a kv.1 kv.2).getD a) {} = l := by
  obtain ⟨ci, ty, va⟩ := l
  by_cases h1 : ci = 0 <;> by_cases h2 : ty = "" <;> by_cases h3 : va = "" <;>
    simp [canonicalFields, h1, h2, h3, assignLinkField,
      show ("type".toList = "child_index".toList) = False from by decide,
      show ("variable".toList = "child_index".toList) = False from by decide,
      show ("variable".toList = "type".toList) = False from by decide]

/-- Round trip of the modelled link-descriptor codec: unmarshalling a
marshalled child link recovers it (a `nil` link decodes to the zero value,
exactly the protobuf getters' view of `nil`). -/
theorem decodeLink_encodeLink (ol : Option ChildLink) :
    decodeLink (encodeLink ol) = some (ol.getD {}) := by
  cases ol with
  | none => decide
  | some l =>
    have hne : ('{' :: (joinFields ((canonicalFields l).map renderField) ++ ['}'])) ≠
        "null".toList := by
      intro h
      rw [show "null".toList = ['n', 'u', 'l', 'l'] from by decide] at h
      injection h with h1 _
      exact absurd h1 (by decide)
    simp only [encodeLink, decodeLink, if_neg hne]
    rw [parseFields_canonical (canonicalFields l) {}
      (joinFields ((canonicalFields l).map renderField) ++ ['}']).length
      ?hlen (canonicalFields_props l)]
    · rw [foldl_canonicalFields]
      rfl
    case hlen => exact joinFields_length (canonicalFields l)

/-! ## `plantree`: linearizer, external renderer, and row decoder

`buildTree` walks the visible links depth-first and hands one payload string
per visible node to the external `treeprint` collaborator; `ProcessPlan`
splits the collaborator's rendered blob back into fragments and decodes each
into a row.  The collaborator is modelled as an arbitrary per-record,
per-line glyph-prefix function `P` constrained only by the contract stated
in the spec (its glyphs contain no tab, newline or null byte). -/

/-- `plantree.RowWithPredicates` (the `Keys` field is never populated by
`ProcessPlan` and is omitted; `ChildLinks` — the `lo.GroupBy` result — is
modelled as the lookup function of the grouping, which on any key returns
the ordered scalar child links of that link type). -/
structure RowWithPredicates where
  id : Nat
  treePart : String
  nodeText : String
  predicates : List String
  childLinks : String → List ResolvedChildLink
  executionStats : ExecutionStats

/-- The `plantree.options` struct: strict-stats flag, `NodeTitle` options,
compact mode, indent size, optional wrap width, and the word-wrapper.  The
`treeprint` style options only shape the glyphs of the external collaborator
and are absorbed into the prefix function; the `runewidth` wrapper is an
external collaborator, modelled as an arbitrary function (the pipeline
theorems hold for every wrapper). -/
structure PTOptions where
  disallowUnknownStats : Bool := false
  qpOpts : TitleOption := {}
  compact : Bool := false
  indentSize : Nat := 2
  wrapWidth : Option Int := none
  wrapFn : String → Int → String := fun s _ => s

/-- The `nodeText` that `buildTree` computes for a link: the `[linkType]`
prefix, the node title, and optional word-wrapping against
`wrapWidth - level*(indentSize+1) - width(sep)`. -/
def nodeTextOf (qp : QueryPlan) (o : PTOptions) (link : Option ChildLink) (level : Nat) :
    String :=
  let sep := if !o.compact then " " else ""
  let node := GetNodeByChildLink qp link
  let lt := GetLinkType qp link
  let base := (if lt ≠ "" then "[" ++ lt ++ "]" ++ sep else "") ++ NodeTitle node o.qpOpts
  match o.wrapWidth with
  | none => base
  | some w => o.wrapFn base (w - (level : Int) * ((o.indentSize : Int) + 1) - (sep.length : Int))

/-- The payload built from a node text and a link descriptor:
`"\n"*newlineCount + "\t" + JSON(nodeText) + "\t" + JSON(link) + "\x00"`. -/
def mkPayload (nodeText : List Char) (link : Option ChildLink) : List Char :=
  List.replicate (nodeText.count '\n') '\n' ++
    '\t' :: (jsonEncodeString nodeText ++ '\t' :: (encodeLink link ++ [Char.ofNat 0]))

/-- The payload `buildTree` binds into the tree for one visible link. -/
def payloadOf (qp : QueryPlan) (o : PTOptions) (link : Option ChildLink) (level : Nat) :
    List Char :=
  mkPayload (nodeTextOf qp o link level).data link

/-- `buildTree`, fuel-indexed (the Go recursion has no depth guard and
diverges on a cyclic plan; exhausted fuel models that divergence).  Returns
the payloads of the subtree in depth-first pre-order: an invisible link
contributes nothing, a visible one contributes its payload followed by the
payloads of its visible children in link order. -/
def buildTreeF : Nat → QueryPlan → PTOptions → Option ChildLink → Nat →
    Option (List (List Char))
  | 0, _, _, _, _ => none
  | fuel + 1, qp, o, link, level =>
    if !IsVisible qp link then some []
    else
      match (VisibleChildLinks qp (GetNodeByChildLink qp link)).mapM
          (fun c => buildTreeF fuel qp o (some c) (level + 1)) with
      | none => none
      | some rest => some (payloadOf qp o link level :: rest.flatten)

/-- The depth-first pre-order traversal through `VisibleChildLinks` that the
spec describes, collecting each visited link with its depth.  This is the
specification-side reading; `buildTreeF_eq_dfs` relates `buildTree` to it. -/
def dfsVisible : Nat → QueryPlan → Option ChildLink → Nat →
    Option (List (Option ChildLink × Nat))
  | 0, _, _, _ => none
  | fuel + 1, qp, link, level =>
    if !IsVisible qp link then some []
    else
      match (VisibleChildLinks qp (GetNodeByChildLink qp link)).mapM
          (fun c => dfsVisible fuel qp (some c) (level + 1)) with
      | none => none
      | some rest => some ((link, level) :: rest.flatten)

/-- `buildTree` emits exactly the payloads of the nodes the depth-first
traversal visits, in traversal order. -/
theorem buildTreeF_eq_dfs (qp : QueryPlan) (o : PTOptions) :
    ∀ (fuel : Nat) (link : Option ChildLink) (level : Nat),
      buildTreeF fuel qp o link level =
        (dfsVisible fuel qp link level).map
          (List.map (fun p => payloadOf qp o p.1 p.2)) := by
  intro fuel
  induction fuel with
  | zero => intro link level; rfl
  | succ fuel ih =>
    intro link level
    simp only [buildTreeF, dfsVisible]
    by_cases hvis : IsVisible qp link
    · simp only [hvis]
      have hmap :
          (VisibleChildLinks qp (GetNodeByChildLink qp link)).mapM
              (fun c => buildTreeF fuel qp o (some c) (level + 1)) =
            ((VisibleChildLinks qp (GetNodeByChildLink qp link)).mapM
                (fun c => dfsVisible fuel qp (some c) (level + 1))).map
              (List.map (List.map (fun p => payloadOf qp o p.1 p.2))) := by
        generalize VisibleChildLinks qp (GetNodeByChildLink qp link) = cs
        induction cs with
        | nil => rfl
        | cons c cs ihc =>
          simp only [List.mapM_cons, ih (some c) (level + 1), ihc]
          cases dfsVisible fuel qp (some c) (level + 1) with
          | none => rfl
          | some l =>
            cases (cs.mapM (fun c => dfsVisible fuel qp (some c) (level + 1))) with
            | none => rfl
            | some ls => simp [bind, Option.bind]
      rw [hmap]
      cases (VisibleChildLinks qp (GetNodeByChildLink qp link)).mapM
          (fun c => dfsVisible fuel qp (some c) (level + 1)) with
      | none => rfl
      | some ls =>
        simp [List.map_flatten]
    · simp [hvis]

/-! ### The external tree renderer, modelled by its contract -/

/-- `strings.Split` on a single-character separator. -/
def splitOnChar (sep : Char) : List Char → List (List Char)
  | [] => [[]]
  | c :: rest =>
    if c = sep then [] :: splitOnChar sep rest
    else
      match splitOnChar sep rest with
      | h :: t => (c :: h) :: t
      | [] => [[c]]

/-- One-pass scanner for `strings.Split(blob, "\x00\n")`: `pending` records
an unconsumed null byte, `cur` the current fragment reversed. -/
def splitNulNlGo : Bool → List Char → List Char → List (List Char)
  | pending, cur, [] => [(if pending then Char.ofNat 0 :: cur else cur).reverse]
  | true, cur, c :: rest =>
    if c = '\n' then cur.reverse :: splitNulNlGo false [] rest
    else if c = Char.ofNat 0 then splitNulNlGo true (Char.ofNat 0 :: cur) rest
    else splitNulNlGo false (c :: Char.ofNat 0 :: cur) rest
  | false, cur, c :: rest =>
    if c = Char.ofNat 0 then splitNulNlGo true cur rest
    else splitNulNlGo false (c :: cur) rest

/-- `strings.Split(blob, "\x00\n")`: split on the two-character record
terminator. -/
def splitNulNl (l : List Char) : List (List Char) :=
  splitNulNlGo false [] l

/-- Rendering of the lines of one payload, each prefixed with the
collaborator's branch art for that line and terminated by a newline. -/
def renderLines (pfx : Nat → List Char) : Nat → List (List Char) → List Char
  | _, [] => []
  | j, l :: rest => pfx j ++ l ++ '\n' :: renderLines pfx (j + 1) rest

/-- Rendering of one payload record. -/
def renderRecord (pfx : Nat → List Char) (payload : List Char) : List Char :=
  renderLines pfx 0 (splitOnChar '\n' payload)

/-- The whole rendered blob: each record's lines prefixed with the
collaborator's glyphs, in emission order. -/
def renderAll (P : Nat → Nat → List Char) : Nat → List (List Char) → List Char
  | _, [] => []
  | i, p :: rest => renderRecord (P i) p ++ renderAll P (i + 1) rest

/-- The tree-drawing collaborator's contract (spec §6): its glyphs never
contain a tab, a newline or a null byte. -/
def PrefixContract (P : Nat → Nat → List Char) : Prop :=
  ∀ i j c, c ∈ P i j → c ≠ '\t' ∧ c ≠ '\n' ∧ c ≠ Char.ofNat 0

/-! ### The row decoder (`ProcessPlan`'s loop) -/

/-- `unicode.IsSpace` over the Latin-1 range, as `strings.TrimSpace` uses it
(the characters that can occur in a fragment are all in this range or are
non-space). -/
def isGoSpace (c : Char) : Bool :=
  c = ' ' || c = '\t' || c = '\n' || c = Char.ofNat 0x0B || c = Char.ofNat 0x0C ||
    c = '\x0d' || c = Char.ofNat 0x85 || c = Char.ofNat 0xA0

/-- `strings.TrimPrefix(s, "\n")`: one leading newline removed. -/
def trimOneNl : List Char → List Char
  | '\n' :: r => r
  | l => l

/-- The decoder's error taxonomy: a malformed fragment (wrong field count or
JSON failure, both carrying the offending raw fragment, as the Go messages
`"unexpected format, tree line = %q"` and
`"unexpected JSON unmarshal error, tree line = %q"` do), a stats-extraction
failure, or exhausted fuel (modelling the Go recursion's divergence on a
cyclic plan). -/
inductive DecodeErr where
  | badFormat (line : List Char)
  | badJson (line : List Char)
  | stats (e : StatsError)
  | outOfFuel
deriving DecidableEq, Repr

/-- Decoding of one non-blank fragment: split on tab into exactly three
fields, JSON-decode the title and the link descriptor. -/
def decodeFragment (frag : List Char) : Except DecodeErr (List Char × String × ChildLink) :=
  let split := splitOnChar '\t' frag
  if split.length ≠ 3 then .error (.badFormat frag)
  else
    let branchText := trimOneNl (split.getD 0 [])
    match jsonDecodeString (split.getD 1 []) with
    | none => .error (.badJson frag)
    | some nodeText =>
      match decodeLink (split.getD 2 []) with
      | none => .error (.badJson frag)
      | some link => .ok (branchText, ⟨nodeText⟩, link)

/-- Construction of one row from a decoded fragment: resolve the node by the
link descriptor's child index, collect predicate strings, group the scalar
child links by link type, and extract the stats. -/
def rowFor (qp : QueryPlan) (strict : Bool) (branch : List Char) (nodeText : String)
    (link : ChildLink) : Except DecodeErr RowWithPredicates :=
  let node := GetNodeByIndex qp link.childIndex
  let predicates := (node.childLinks.filter (fun cl => IsPredicate qp (some cl))).map
    (fun cl => cl.type ++ ": " ++ (GetNodeByChildLink qp (some cl)).shortRepresentation)
  let resolved := node.childLinks.map (ResolveChildLink qp)
  let scalarLinks := resolved.filter (fun r => r.child.kind == .SCALAR)
  match Extract node strict with
  | .error e => .error (.stats e)
  | .ok es =>
    .ok { id := node.index, treePart := ⟨branch⟩, nodeText := nodeText,
          predicates := predicates,
          childLinks := fun t => scalarLinks.filter (fun r => r.childLink.type == t),
          executionStats := es }

/-- The fragment loop of `ProcessPlan`: blank fragments are skipped, any
fragment error aborts the whole decode. -/
def decodeRows (qp : QueryPlan) (strict : Bool) :
    List (List Char) → Except DecodeErr (List RowWithPredicates)
  | [] => .ok []
  | frag :: rest =>
    if frag.all isGoSpace then decodeRows qp strict rest
    else
      match decodeFragment frag with
      | .error e => .error e
      | .ok (branch, nodeText, link) =>
        match rowFor qp strict branch nodeText link with
        | .error e => .error e
        | .ok row => (decodeRows qp strict rest).map (fun rs => row :: rs)

/-- `ProcessPlan`: linearize, render through the collaborator `P`, split on
the record terminator, decode every fragment. -/
def ProcessPlan (qp : QueryPlan) (o : PTOptions) (P : Nat → Nat → List Char) (fuel : Nat) :
    Except DecodeErr (List RowWithPredicates) :=
  match buildTreeF fuel qp o none 0 with
  | none => .error .outOfFuel
  | some payloads => decodeRows qp o.disallowUnknownStats (splitNulNl (renderAll P 0 payloads))

/-! ### Character-range facts about the encoded payload pieces -/

theorem jsonEncodeString_ge (s : List Char) (x : Char) (hx : x ∈ jsonEncodeString s) :
    0x20 ≤ x.toNat := by
  unfold jsonEncodeString at hx
  rcases List.mem_cons.mp hx with h | h
  · subst h; decide
  rcases List.mem_append.mp h with h | h
  · obtain ⟨c, _, hc⟩ := List.mem_flatMap.mp h
    exact jsonEscapeChar_ge c x hc
  · simp at h; subst h; decide

theorem mem_joinFields (fs : List (List Char)) (x : Char) (hx : x ∈ joinFields fs) :
    (∃ f ∈ fs, x ∈ f) ∨ x = ',' := by
  induction fs with
  | nil => simp [joinFields] at hx
  | cons f fs ih =>
    cases fs with
    | nil =>
      simp only [joinFields] at hx
      exact Or.inl ⟨f, List.mem_cons_self f [], hx⟩
    | cons f2 fs2 =>
      have : joinFields (f :: f2 :: fs2) = f ++ ',' :: joinFields (f2 :: fs2) := rfl
      rw [this] at hx
      rcases List.mem_append.mp hx with h | h
      · exact Or.inl ⟨f, List.mem_cons_self f _, h⟩
      · rcases List.mem_cons.mp h with h | h
        · exact Or.inr h
        · rcases ih h with ⟨g, hg, hxg⟩ | h
          · exact Or.inl ⟨g, List.mem_cons_of_mem f hg, hxg⟩
          · exact Or.inr h

theorem quoteKey_ge (k : List Char) (hk : ∀ c ∈ k, 0x20 ≤ c.toNat) (x : Char)
    (hx : x ∈ quoteKey k) : 0x20 ≤ x.toNat := by
  unfold quoteKey at hx
  rcases List.mem_cons.mp hx with rfl | h
  · decide
  rcases List.mem_append.mp h with h | h
  · exact hk x h
  rcases List.mem_cons.mp h with rfl | h
  · decide
  rcases List.mem_cons.mp h with rfl | h
  · decide
  cases h

/-- Every character of a marshalled link descriptor is at code point `0x20`
or above. -/
theorem encodeLink_ge (ol : Option ChildLink) (x : Char) (hx : x ∈ encodeLink ol) :
    0x20 ≤ x.toNat := by
  cases ol with
  | none =>
    simp only [encodeLink] at hx
    rw [show ("null".toList : List Char) = ['n', 'u', 'l', 'l'] from by decide] at hx
    simp at hx
    rcases hx with rfl | rfl | rfl <;> decide
  | some l =>
    simp only [encodeLink, List.mem_cons, List.mem_append] at hx
    rcases hx with rfl | h | h
    · decide
    · rcases mem_joinFields _ x h with ⟨f, hf, hxf⟩ | rfl
      · obtain ⟨kv, hkv, rfl⟩ := List.mem_map.mp hf
        have hkey : ∀ c ∈ kv.1, 0x20 ≤ c.toNat := by
          rcases (by
            have h' := hkv
            simp only [canonicalFields, List.mem_append] at h'
            have : kv.1 = "child_index".toList ∨ kv.1 = "type".toList ∨
                kv.1 = "variable".toList := by
              rcases h' with (h | h) | h
              · revert h; split
                · simp
                · intro h; simp at h; rw [h]; left; rfl
              · revert h; split
                · simp
                · intro h; simp at h; rw [h]; right; left; rfl
              · revert h; split
                · simp
                · intro h; simp at h; rw [h]; right; right; rfl
            exact this : kv.1 = "child_index".toList ∨ kv.1 = "type".toList ∨
              kv.1 = "variable".toList) with h | h | h <;> rw [h] <;>
            (intro c hc; revert hc; revert c; decide)
        rcases List.mem_append.mp hxf with h | h
        · exact quoteKey_ge kv.1 hkey x h
        · cases hv : kv.2 with
          | str s => rw [hv] at h; exact jsonEncodeString_ge s x h
          | num n => rw [hv] at h; exact natToDec_ge n x h
      · decide
    · simp at h; subst h; decide

/-! ### Splitting the rendered blob back into fragments -/

theorem splitOnChar_no_sep (sep : Char) (b : List Char) (hb : sep ∉ b) :
    splitOnChar sep b = [b] := by
  induction b with
  | nil => rfl
  | cons c b ih =>
    have hc : c ≠ sep := fun h => hb (h ▸ List.mem_cons_self c b)
    have hb' : sep ∉ b := fun h => hb (List.mem_cons_of_mem c h)
    simp only [splitOnChar, hc, if_false, ih hb']

theorem splitOnChar_append (sep : Char) (a rest : List Char) (ha : sep ∉ a) :
    splitOnChar sep (a ++ sep :: rest) = a :: splitOnChar sep rest := by
  induction a with
  | nil => simp [splitOnChar]
  | cons c a ih =>
    have hc : c ≠ sep := fun h => ha (h ▸ List.mem_cons_self c a)
    have ha' : sep ∉ a := fun h => ha (List.mem_cons_of_mem c h)
    rw [List.cons_append]
    simp only [splitOnChar, hc, if_false]
    rw [ih ha']

theorem splitOnChar_replicate (k : Nat) (rest : List Char) :
    splitOnChar '\n' (List.replicate k '\n' ++ rest) =
      List.replicate k [] ++ splitOnChar '\n' rest := by
  induction k with
  | zero => rfl
  | succ k ih => simp [List.replicate_succ, splitOnChar, ih]

/-- The body-then-terminator split of the blob scanner. -/
theorem splitNulNlGo_body (body : List Char) (hb : Char.ofNat 0 ∉ body) :
    ∀ (cur rest : List Char),
      splitNulNlGo false cur (body ++ Char.ofNat 0 :: '\n' :: rest) =
        (cur.reverse ++ body) :: splitNulNlGo false [] rest := by
  induction body with
  | nil =>
    intro cur rest
    simp [splitNulNlGo]
  | cons b body ih =>
    intro cur rest
    have hbnul : b ≠ Char.ofNat 0 := fun h => hb (h ▸ List.mem_cons_self b body)
    have hb' : Char.ofNat 0 ∉ body := fun h => hb (List.mem_cons_of_mem b h)
    have ih' := ih hb' (b :: cur) rest
    simp only [List.cons_append, splitNulNlGo, hbnul, if_false, List.append_eq]
    rw [ih']
    simp

/-- A null-free terminated record splits off as one fragment. -/
theorem splitNulNl_record (body rest : List Char) (hb : Char.ofNat 0 ∉ body) :
    splitNulNl (body ++ Char.ofNat 0 :: '\n' :: rest) = body :: splitNulNl rest := by
  unfold splitNulNl
  rw [splitNulNlGo_body body hb [] rest]
  simp

/-! ### Shape of one rendered record and its decoding -/

/-- The branch-art block of a `k+1`-line record: the collaborator's prefix
for each line, newline-separated (the last line's text follows directly). -/
def artLines (pfx : Nat → List Char) : Nat → Nat → List Char
  | j, 0 => pfx j
  | j, k + 1 => pfx j ++ '\n' :: artLines pfx (j + 1) k

/-- The fragment a record contributes after the terminator split: branch art,
tab, JSON title, tab, JSON link descriptor. -/
def fragOf (pfx : Nat → List Char) (nt : List Char) (link : Option ChildLink) : List Char :=
  artLines pfx 0 (nt.count '\n') ++ '\t' :: (jsonEncodeString nt ++ '\t' :: encodeLink link)

theorem renderLines_blank (pfx : Nat → List Char) (last : List Char) :
    ∀ (k j : Nat), renderLines pfx j (List.replicate k [] ++ [last]) =
      artLines pfx j k ++ (last ++ ['\n']) := by
  intro k
  induction k with
  | zero =>
    intro j
    simp [renderLines, artLines]
  | succ k ih =>
    intro j
    simp only [List.replicate_succ, List.cons_append, renderLines, artLines, List.append_eq,
      List.append_nil, List.nil_append]
    rw [ih (j + 1)]
    simp

/-- The last line of a payload contains no raw newline. -/
theorem payload_last_no_nl (nt : List Char) (link : Option ChildLink) :
    '\n' ∉ '\t' :: (jsonEncodeString nt ++ '\t' :: (encodeLink link ++ [Char.ofNat 0])) := by
  intro h
  rcases List.mem_cons.mp h with h | h
  · cases h
  rcases List.mem_append.mp h with h | h
  · have := jsonEncodeString_ge nt '\n' h
    simp at this
  rcases List.mem_cons.mp h with h | h
  · cases h
  rcases List.mem_append.mp h with h | h
  · have := encodeLink_ge link '\n' h
    simp at this
  · simp at h

/-- A rendered record is its fragment followed by the record terminator. -/
theorem renderRecord_mkPayload (pfx : Nat → List Char) (nt : List Char)
    (link : Option ChildLink) :
    renderRecord pfx (mkPayload nt link) =
      fragOf pfx nt link ++ Char.ofNat 0 :: '\n' :: [] := by
  unfold renderRecord mkPayload
  rw [splitOnChar_replicate]
  rw [splitOnChar_no_sep _ _ (payload_last_no_nl nt link)]
  rw [renderLines_blank]
  unfold fragOf
  simp

theorem mem_artLines (pfx : Nat → List Char) :
    ∀ (k j : Nat) (x : Char), x ∈ artLines pfx j k → (∃ j', x ∈ pfx j') ∨ x = '\n' := by
  intro k
  induction k with
  | zero =>
    intro j x hx
    exact Or.inl ⟨j, hx⟩
  | succ k ih =>
    intro j x hx
    simp only [artLines] at hx
    rcases List.mem_append.mp hx with h | h
    · exact Or.inl ⟨j, h⟩
    rcases List.mem_cons.mp h with rfl | h
    · exact Or.inr rfl
    · exact ih (j + 1) x h

/-- Per-record view of the collaborator contract. -/
def LineContract (pfx : Nat → List Char) : Prop :=
  ∀ j c, c ∈ pfx j → c ≠ '\t' ∧ c ≠ '\n' ∧ c ≠ Char.ofNat 0

theorem artLines_no_tab (pfx : Nat → List Char) (hpfx : LineContract pfx) (k : Nat) :
    '\t' ∉ artLines pfx 0 k := by
  intro h
  rcases mem_artLines pfx k 0 '\t' h with ⟨j, hj⟩ | h
  · exact (hpfx j '\t' hj).1 rfl
  · cases h

theorem fragOf_no_nul (pfx : Nat → List Char) (hpfx : LineContract pfx) (nt : List Char)
    (link : Option ChildLink) : Char.ofNat 0 ∉ fragOf pfx nt link := by
  intro h
  unfold fragOf at h
  rcases List.mem_append.mp h with h | h
  · rcases mem_artLines pfx _ 0 _ h with ⟨j, hj⟩ | h
    · exact (hpfx j _ hj).2.2 rfl
    · cases h
  rcases List.mem_cons.mp h with h | h
  · cases h
  rcases List.mem_append.mp h with h | h
  · have := jsonEncodeString_ge nt _ h
    simp at this
  rcases List.mem_cons.mp h with h | h
  · cases h
  · have := encodeLink_ge link _ h
    simp at this

theorem jsonEncodeString_no_tab (nt : List Char) : '\t' ∉ jsonEncodeString nt := by
  intro h
  have := jsonEncodeString_ge nt '\t' h
  simp at this

theorem encodeLink_no_tab (link : Option ChildLink) : '\t' ∉ encodeLink link := by
  intro h
  have := encodeLink_ge link '\t' h
  simp at this

/-- Splitting a fragment on tab yields exactly the three fields. -/
theorem fragOf_splitTab (pfx : Nat → List Char) (hpfx : LineContract pfx) (nt : List Char)
    (link : Option ChildLink) :
    splitOnChar '\t' (fragOf pfx nt link) =
      [artLines pfx 0 (nt.count '\n'), jsonEncodeString nt, encodeLink link] := by
  unfold fragOf
  rw [splitOnChar_append _ _ _ (artLines_no_tab pfx hpfx _)]
  rw [splitOnChar_append _ _ _ (jsonEncodeString_no_tab nt)]
  rw [splitOnChar_no_sep _ _ (encodeLink_no_tab link)]

theorem all_eq_false_of_mem {p : Char → Bool} {l : List Char} {x : Char}
    (hx : x ∈ l) (hpx : p x = false) : l.all p = false := by
  by_contra h
  have := List.all_eq_true.mp (Bool.eq_true_of_ne_false h) x hx
  rw [hpx] at this
  cases this

/-- A fragment is never blank: it contains the title's opening quote. -/
theorem fragOf_not_blank (pfx : Nat → List Char) (nt : List Char) (link : Option ChildLink) :
    (fragOf pfx nt link).all isGoSpace = false := by
  refine all_eq_false_of_mem (x := '"') ?_ (by decide)
  unfold fragOf
  refine List.mem_append.mpr (Or.inr ?_)
  refine List.mem_cons.mpr (Or.inr ?_)
  refine List.mem_append.mpr (Or.inl ?_)
  unfold jsonEncodeString
  exact List.mem_cons_self _ _

/-- `(ol.getD {}).childIndex` is the protobuf getter's view of the link. -/
theorem getD_childIndex (ol : Option ChildLink) : (ol.getD {}).childIndex = linkChildIndex ol := by
  cases ol <;> rfl

/-- Decoding of one rendered fragment recovers the title and the link. -/
theorem decodeFragment_fragOf (pfx : Nat → List Char) (hpfx : LineContract pfx)
    (nt : List Char) (link : Option ChildLink) :
    decodeFragment (fragOf pfx nt link) =
      .ok (trimOneNl (artLines pfx 0 (nt.count '\n')), ⟨nt⟩, link.getD {}) := by
  unfold decodeFragment
  rw [fragOf_splitTab pfx hpfx nt link]
  simp [List.getD, jsonDecodeString_encodeString, decodeLink_encodeLink]

/-! ### The decode loop over the rendered blob -/

/-- `rowFor` under a successful stats extraction. -/
theorem rowFor_ok (qp : QueryPlan) (strict : Bool) (branch : List Char) (nodeText : String)
    (link : ChildLink) (es : ExecutionStats)
    (hes : Extract (GetNodeByIndex qp link.childIndex) strict = .ok es) :
    rowFor qp strict branch nodeText link =
      .ok { id := (GetNodeByIndex qp link.childIndex).index,
            treePart := ⟨branch⟩,
            nodeText := nodeText,
            predicates := ((GetNodeByIndex qp link.childIndex).childLinks.filter
                (fun cl => IsPredicate qp (some cl))).map
              (fun cl => cl.type ++ ": " ++ (GetNodeByChildLink qp (some cl)).shortRepresentation),
            childLinks := fun t =>
              (((GetNodeByIndex qp link.childIndex).childLinks.map (ResolveChildLink qp)).filter
                  (fun r => r.child.kind == .SCALAR)).filter
                (fun r => r.childLink.type == t),
            executionStats := es } := by
  unfold rowFor
  dsimp only
  rw [hes]

/-- One step of the fragment loop on a well-formed fragment. -/
theorem decodeRows_step (qp : QueryPlan) (strict : Bool) (frag : List Char)
    (rest : List (List Char)) (branch : List Char) (ntx : String) (lk : ChildLink)
    (row : RowWithPredicates)
    (hnb : frag.all isGoSpace = false)
    (hdf : decodeFragment frag = .ok (branch, ntx, lk))
    (hrf : rowFor qp strict branch ntx lk = .ok row) :
    decodeRows qp strict (frag :: rest) =
      (decodeRows qp strict rest).map (fun rs => row :: rs) := by
  simp only [decodeRows, hnb, hdf, hrf]
  rfl

/-- Decoding the rendered blob of a payload list recovers one row per
emitted link, in order, with the node resolved through the link descriptor's
child index and the title recovered exactly. -/
theorem decodeRows_renderAll (qp : QueryPlan) (o : PTOptions) (P : Nat → Nat → List Char)
    (hP : PrefixContract P) :
    ∀ (links : List (Option ChildLink × Nat)) (i : Nat),
      (∀ l ∈ links,
        (Extract (GetNodeByIndex qp (linkChildIndex l.1)) o.disallowUnknownStats).isOk = true) →
      ∃ rows, decodeRows qp o.disallowUnknownStats
          (splitNulNl (renderAll P i (links.map (fun l => payloadOf qp o l.1 l.2)))) =
            .ok rows ∧
        rows.map (fun r => r.id) =
          links.map (fun l => (GetNodeByIndex qp (linkChildIndex l.1)).index) ∧
        rows.map (fun r => r.nodeText) = links.map (fun l => nodeTextOf qp o l.1 l.2) := by
  intro links
  induction links with
  | nil =>
    intro i _
    exact ⟨[], rfl, rfl, rfl⟩
  | cons l ls ih =>
    intro i hext
    have hLC : LineContract (P i) := fun j c hc => hP i j c hc
    have hblob : renderAll P i ((l :: ls).map (fun x => payloadOf qp o x.1 x.2)) =
        fragOf (P i) (nodeTextOf qp o l.1 l.2).data l.1 ++ Char.ofNat 0 :: '\n' ::
          renderAll P (i + 1) (ls.map (fun x => payloadOf qp o x.1 x.2)) := by
      simp only [List.map_cons, renderAll]
      rw [show payloadOf qp o l.1 l.2 = mkPayload (nodeTextOf qp o l.1 l.2).data l.1 from rfl]
      rw [renderRecord_mkPayload]
      simp
    rw [hblob,
      splitNulNl_record _ _ (fragOf_no_nul (P i) hLC (nodeTextOf qp o l.1 l.2).data l.1)]
    obtain ⟨rows', hrows', hid', hnt'⟩ := ih (i + 1) (fun x hx => hext x (List.mem_cons_of_mem l hx))
    have hextl := hext l (List.mem_cons_self l ls)
    obtain ⟨es, hes⟩ : ∃ es,
        Extract (GetNodeByIndex qp (linkChildIndex l.1)) o.disallowUnknownStats = .ok es := by
      cases h : Extract (GetNodeByIndex qp (linkChildIndex l.1)) o.disallowUnknownStats with
      | ok es => exact ⟨es, rfl⟩
      | error e => rw [h] at hextl; simp [Except.isOk, Except.toBool] at hextl
    have hes' : Extract (GetNodeByIndex qp (l.1.getD {}).childIndex) o.disallowUnknownStats =
        .ok es := by rw [getD_childIndex]; exact hes
    have hstep := decodeRows_step qp o.disallowUnknownStats
      (fragOf (P i) (nodeTextOf qp o l.1 l.2).data l.1)
      (splitNulNl (renderAll P (i + 1) (ls.map (fun x => payloadOf qp o x.1 x.2))))
      (trimOneNl (artLines (P i) 0 ((nodeTextOf qp o l.1 l.2).data.count '\n')))
      ⟨(nodeTextOf qp o l.1 l.2).data⟩ (l.1.getD {}) _
      (fragOf_not_blank (P i) _ l.1)
      (decodeFragment_fragOf (P i) hLC _ l.1)
      (rowFor_ok qp o.disallowUnknownStats _ _ (l.1.getD {}) es hes')
    rw [hstep, hrows']
    refine ⟨_, rfl, ?_, ?_⟩
    · simp only [List.map_cons, hid', getD_childIndex]
    · simp only [List.map_cons, hnt']

/-- `ProcessPlan` end to end: when the depth-first traversal terminates and
every visited node's stats extract, the returned rows are exactly one per
visited link, in traversal order, each resolving its node through the
decoded link descriptor's child index and carrying the exact node text. -/
theorem ProcessPlan_ok (qp : QueryPlan) (o : PTOptions) (P : Nat → Nat → List Char)
    (fuel : Nat) (links : List (Option ChildLink × Nat))
    (hP : PrefixContract P)
    (hdfs : dfsVisible fuel qp none 0 = some links)
    (hext : ∀ l ∈ links,
      (Extract (GetNodeByIndex qp (linkChildIndex l.1)) o.disallowUnknownStats).isOk = true) :
    ∃ rows, ProcessPlan qp o P fuel = .ok rows ∧
      rows.map (fun r => r.id) =
        links.map (fun l => (GetNodeByIndex qp (linkChildIndex l.1)).index) ∧
      rows.map (fun r => r.nodeText) = links.map (fun l => nodeTextOf qp o l.1 l.2) := by
  obtain ⟨rows, hrows, hid, hnt⟩ := decodeRows_renderAll qp o P hP links 0 hext
  refine ⟨rows, ?_, hid, hnt⟩
  unfold ProcessPlan
  rw [buildTreeF_eq_dfs, hdfs]
  exact hrows

/-! ## Well-formedness of loader-produced plans -/

/-- Index-position agreement: the loader guarantees the node at position `i`
declares index `i` (spec §3 invariant). -/
def WFIndex (qp : QueryPlan) : Prop :=
  ∀ i, i < qp.planNodes.length → (nodeAt qp i).index = i

instance (qp : QueryPlan) : Decidable (WFIndex qp) :=
  Nat.decidableBallLT _ _

/-- Every child link of every node resolves to an existing node. -/
def WFBounds (qp : QueryPlan) : Prop :=
  ∀ node ∈ qp.planNodes, ∀ cl ∈ node.childLinks, cl.childIndex < qp.planNodes.length

instance (qp : QueryPlan) : Decidable (WFBounds qp) := by
  unfold WFBounds
  infer_instance

theorem mapM_flatten_mem {α β : Type} (f : α → Option (List β)) :
    ∀ (cs : List α) (ls : List (List β)), cs.mapM f = some ls →
      ∀ x ∈ ls.flatten, ∃ c ∈ cs, ∃ l, f c = some l ∧ x ∈ l := by
  intro cs
  induction cs with
  | nil =>
    intro ls h x hx
    simp only [List.mapM_nil, pure, Option.some.injEq] at h
    subst h
    simp at hx
  | cons c cs ih =>
    intro ls h x hx
    simp only [List.mapM_cons, bind, Option.bind, pure] at h
    cases hc : f c with
    | none => rw [hc] at h; cases h
    | some l =>
      rw [hc] at h
      cases hcs : cs.mapM f with
      | none => rw [hcs] at h; cases h
      | some ls2 =>
        rw [hcs] at h
        simp only [Option.some.injEq] at h
        subst h
        have hx' : x ∈ l ∨ ∃ l2 ∈ ls2, x ∈ l2 := by simpa using hx
        rcases hx' with hxl | ⟨l2, hl2mem, hx2⟩
        · exact ⟨c, List.mem_cons_self c cs, l, hc, hxl⟩
        · obtain ⟨c2, hc2, l3, hl3, hx3⟩ :=
            ih ls2 hcs x (List.mem_flatten.mpr ⟨l2, hl2mem, hx2⟩)
          exact ⟨c2, List.mem_cons_of_mem c hc2, l3, hl3, hx3⟩

/-- A node reached by an in-bounds link is a member of the node list. -/
theorem nodeAt_mem (qp : QueryPlan) (i : Nat) (h : i < qp.planNodes.length) :
    nodeAt qp i ∈ qp.planNodes := by
  unfold nodeAt
  rw [List.getD_eq_getElem _ _ h]
  exact List.getElem_mem h

/-- Every link the depth-first traversal visits is in bounds. -/
theorem dfsVisible_links_bound (qp : QueryPlan) (hb : WFBounds qp) :
    ∀ (fuel : Nat) (link : Option ChildLink) (level : Nat) links,
      dfsVisible fuel qp link level = some links →
      linkChildIndex link < qp.planNodes.length →
      ∀ l ∈ links, linkChildIndex l.1 < qp.planNodes.length := by
  intro fuel
  induction fuel with
  | zero => intro link level links h; cases h
  | succ fuel ih =>
    intro link level links h hlink l hl
    simp only [dfsVisible] at h
    by_cases hvis : IsVisible qp link
    · rw [if_neg (by simpa using hvis)] at h
      cases hmm : (VisibleChildLinks qp (GetNodeByChildLink qp link)).mapM
          (fun c => dfsVisible fuel qp (some c) (level + 1)) with
      | none => rw [hmm] at h; cases h
      | some rest =>
        rw [hmm] at h
        simp only [Option.some.injEq] at h
        subst h
        rcases List.mem_cons.mp hl with rfl | hl
        · exact hlink
        · obtain ⟨c, hc, l2, hl2, hx⟩ := mapM_flatten_mem _ _ rest hmm l hl
          have hcmem : c ∈ (GetNodeByChildLink qp link).childLinks :=
            List.mem_of_mem_filter hc
          have hcb : c.childIndex < qp.planNodes.length :=
            hb (GetNodeByChildLink qp link) (nodeAt_mem qp _ hlink) c hcmem
          exact ih (some c) (level + 1) l2 hl2 hcb l hx
    · rw [if_pos (by simpa using hvis)] at h
      simp only [Option.some.injEq] at h
      subst h
      cases hl

/-! ## The claims -/

/-- C2: for every valid plan, the rows `ProcessPlan` returns are exactly one
per node reachable by depth-first pre-order traversal from the root through
`VisibleChildLinks`, in traversal order: the row ids are the visited nodes'
indices in visit order, and the row count is the visit count. -/
theorem C2_rows_are_dfs_preorder (qp : QueryPlan) (o : PTOptions) (P : Nat → Nat → List Char)
    (fuel : Nat) (links : List (Option ChildLink × Nat)) (rows : List RowWithPredicates)
    (hP : PrefixContract P)
    (hdfs : dfsVisible fuel qp none 0 = some links)
    (hext : ∀ l ∈ links,
      (Extract (GetNodeByChildLink qp l.1) o.disallowUnknownStats).isOk = true)
    (hpp : ProcessPlan qp o P fuel = .ok rows) :
    rows.map (fun r => r.id) = links.map (fun l => (GetNodeByChildLink qp l.1).index) ∧
      rows.length = links.length := by
  obtain ⟨rows2, hrows2, hid, _⟩ := ProcessPlan_ok qp o P fuel links hP hdfs hext
  rw [hpp] at hrows2
  injection hrows2 with hrows2
  subst hrows2
  refine ⟨hid, ?_⟩
  have := congrArg List.length hid
  simpa using this

/-- Demonstration plan for the pipeline witnesses: a relational root with
two relational children whose display names and metadata are identical, so
the two children render identical node titles. -/
def demoNodes : List PlanNode :=
  [{ index := 0, kind := .RELATIONAL, displayName := "Union",
     childLinks := [{ childIndex := 1 }, { childIndex := 2 }] },
   { index := 1, kind := .RELATIONAL, displayName := "Scan",
     metadata := [("scan_type", "TableScan")] },
   { index := 2, kind := .RELATIONAL, displayName := "Scan",
     metadata := [("scan_type", "TableScan")] }]

def demoQp : QueryPlan :=
  { planNodes := demoNodes, parentMap := buildParentMap demoNodes }

/-- The traversal of the demonstration plan. -/
def demoLinks : List (Option ChildLink × Nat) :=
  [(none, 0), (some { childIndex := 1 }, 1), (some { childIndex := 2 }, 1)]

/-- A collaborator that prefixes nothing; it satisfies the contract. -/
def emptyPrefixes : Nat → Nat → List Char := fun _ _ => []

theorem emptyPrefixes_contract : PrefixContract emptyPrefixes :=
  fun _ _ c hc => absurd hc (List.not_mem_nil c)

theorem demo_processPlan_ok : ∃ rows, ProcessPlan demoQp {} emptyPrefixes 3 = .ok rows := by
  have h : (ProcessPlan demoQp {} emptyPrefixes 3).isOk = true := by decide
  cases hp : ProcessPlan demoQp {} emptyPrefixes 3 with
  | ok rows => exact ⟨rows, rfl⟩
  | error e => rw [hp] at h; simp [Except.isOk, Except.toBool] at h

/-- Witness for C2: on the demonstration plan the rows are exactly the three
visited nodes, in pre-order. -/
theorem C2_rows_are_dfs_preorder_witness :
    ∃ rows, ProcessPlan demoQp {} emptyPrefixes 3 = .ok rows ∧
      rows.map (fun r => r.id) = [0, 1, 2] ∧ rows.length = 3 := by
  obtain ⟨rows, hrows⟩ := demo_processPlan_ok
  have hmain := C2_rows_are_dfs_preorder demoQp {} emptyPrefixes 3 demoLinks rows
    emptyPrefixes_contract (by decide) (by decide) hrows
  refine ⟨rows, hrows, ?_, ?_⟩
  · rw [hmain.1]; decide
  · rw [hmain.2]; decide

/-- C1: for every plan and every visible node the linearizer emits, the
decoded row's identity is the child index recovered from the JSON-decoded
link descriptor — the node list position — independent of the title text,
so rows over distinct nodes stay distinct even when their rendered titles
coincide (the witness instantiates two siblings with identical display name
and metadata). -/
theorem C1_identity_from_link_descriptor (qp : QueryPlan) (o : PTOptions)
    (P : Nat → Nat → List Char) (fuel : Nat) (links : List (Option ChildLink × Nat))
    (rows : List RowWithPredicates)
    (hP : PrefixContract P)
    (hidx : WFIndex qp)
    (hb : WFBounds qp)
    (hroot : 0 < qp.planNodes.length)
    (hdfs : dfsVisible fuel qp none 0 = some links)
    (hext : ∀ l ∈ links,
      (Extract (GetNodeByChildLink qp l.1) o.disallowUnknownStats).isOk = true)
    (hpp : ProcessPlan qp o P fuel = .ok rows) :
    rows.map (fun r => r.id) = links.map (fun l => linkChildIndex l.1) ∧
      ((links.map (fun l => linkChildIndex l.1)).Nodup →
        (rows.map (fun r => r.id)).Nodup) := by
  obtain ⟨rows2, hrows2, hid, _⟩ := ProcessPlan_ok qp o P fuel links hP hdfs hext
  rw [hpp] at hrows2
  injection hrows2 with hrows2
  subst hrows2
  have hbnd := dfsVisible_links_bound qp hb fuel none 0 links hdfs
    (by simpa [linkChildIndex] using hroot)
  have hmap : links.map (fun l => (GetNodeByIndex qp (linkChildIndex l.1)).index) =
      links.map (fun l => linkChildIndex l.1) := by
    refine List.map_congr_left ?_
    intro l hl
    exact hidx (linkChildIndex l.1) (hbnd l hl)
  constructor
  · rw [hid, hmap]
  · intro hnd
    rw [hid, hmap]
    exact hnd

/-- Witness for C1: the demonstration plan's two sibling scans carry
identical display names and metadata — identical rendered titles — yet each
decoded row resolves to its own node (ids `0`, `1`, `2`, no duplicates). -/
theorem C1_identity_from_link_descriptor_witness :
    (NodeTitle (demoNodes.getD 1 default) {} = NodeTitle (demoNodes.getD 2 default) {}) ∧
    ∃ rows, ProcessPlan demoQp {} emptyPrefixes 3 = .ok rows ∧
      rows.map (fun r => r.id) = [0, 1, 2] ∧ (rows.map (fun r => r.id)).Nodup := by
  refine ⟨by decide, ?_⟩
  obtain ⟨rows, hrows⟩ := demo_processPlan_ok
  have hmain := C1_identity_from_link_descriptor demoQp {} emptyPrefixes 3 demoLinks rows
    emptyPrefixes_contract (by decide) (by decide) (by decide) (by decide) (by decide) hrows
  refine ⟨rows, hrows, ?_, ?_⟩
  · rw [hmain.1]; decide
  · exact hmain.2 (by decide)

theorem isSuffixOf_iff_suffix (l1 l2 : List Char) :
    l1.isSuffixOf l2 = true ↔ l1 <:+ l2 := by
  rw [List.isSuffixOf, List.isPrefixOf_iff_prefix, List.reverse_prefix]

/-- C3: encoding any title — tabs, newlines and quotes included — into the
payload (JSON-marshal, tab-delimited, NUL-terminated), rendering it through
any contract-satisfying collaborator and decoding the resulting fragment
yields exactly the original title, because the JSON encoding escapes every
embedded tab, newline and quote. -/
theorem C3_title_roundtrip (title : String) (link : Option ChildLink)
    (pfx : Nat → List Char) (hpfx : LineContract pfx) :
    splitNulNl (renderRecord pfx (mkPayload title.data link)) =
      [fragOf pfx title.data link, []] ∧
    decodeFragment (fragOf pfx title.data link) =
      .ok (trimOneNl (artLines pfx 0 (title.data.count '\n')), title, link.getD {}) := by
  constructor
  · rw [renderRecord_mkPayload]
    rw [splitNulNl_record _ _ (fragOf_no_nul pfx hpfx title.data link)]
    rfl
  · exact decodeFragment_fragOf pfx hpfx title.data link

/-- Witness for C3 at a title containing a literal tab, quotes and a
newline. -/
theorem C3_title_roundtrip_witness :
    decodeFragment
        (fragOf (fun _ => []) "a\t\"b\"\nc".data (some { childIndex := 7, type := "Scalar" })) =
      .ok (trimOneNl (artLines (fun _ => []) 0 ("a\t\"b\"\nc".data.count '\n')),
        "a\t\"b\"\nc", { childIndex := 7, type := "Scalar", var := "" }) :=
  (C3_title_roundtrip "a\t\"b\"\nc" (some { childIndex := 7, type := "Scalar" })
    (fun _ => []) (fun _ c hc => absurd hc (List.not_mem_nil c))).2

/-- C4: a link is visible exactly when the linked child node's kind is
`RELATIONAL` or the link's type is `"Scalar"`; `buildTree` emits nothing for
an invisible link. -/
theorem C4_visibility (qp : QueryPlan) (link : Option ChildLink) :
    (IsVisible qp link = true ↔
      (GetNodeByChildLink qp link).kind = .RELATIONAL ∨ linkType link = "Scalar") ∧
    (∀ (o : PTOptions) (fuel level : Nat), IsVisible qp link = false →
      buildTreeF (fuel + 1) qp o link level = some []) := by
  constructor
  · simp [IsVisible]
  · intro o fuel level h
    simp [buildTreeF, h]

/-- Demonstration plan for classification: a `Distributed Union` with a
`Split Range` link to a scalar `Function` child. -/
def predNodes : List PlanNode :=
  [{ index := 0, kind := .RELATIONAL, displayName := "Distributed Union",
     childLinks := [{ childIndex := 1, type := "Split Range" }] },
   { index := 1, kind := .SCALAR, displayName := "Function",
     shortRepresentation := "($v1 = 1)" }]

def predQp : QueryPlan :=
  { planNodes := predNodes, parentMap := buildParentMap predNodes }

/-- Witness for C4: the scalar `Function` child behind a non-`Scalar` link
is invisible and `buildTree` emits nothing for it. -/
theorem C4_visibility_witness :
    buildTreeF 1 predQp {} (some { childIndex := 1, type := "Split Range" }) 0 = some [] :=
  (C4_visibility predQp (some { childIndex := 1, type := "Split Range" })).2 {} 0 0 (by decide)

/-- C5: a child link is a predicate exactly when its resolved child's
display name is `"Function"` and the link's type ends in `"Condition"` or is
`"Split Range"`; every other link — other links with a `Function` child
included — is not a predicate. -/
theorem C5_predicate_classification (qp : QueryPlan) (link : ChildLink) :
    IsPredicate qp (some link) = true ↔
      ((GetNodeByChildLink qp (some link)).displayName = "Function" ∧
        ("Condition".data <:+ link.type.data ∨ link.type = "Split Range")) := by
  unfold IsPredicate IsFunction
  simp only [linkType, strEndsWith]
  constructor
  · intro h
    by_cases hf : (GetNodeByChildLink qp (some link)).displayName = "Function"
    · refine ⟨hf, ?_⟩
      rw [if_neg (by simp [hf])] at h
      by_cases hc : ("Condition".data.isSuffixOf link.type.data || link.type == "Split Range")
        = true
      · rcases (Bool.or_eq_true _ _).mp hc with h1 | h1
        · exact Or.inl ((isSuffixOf_iff_suffix _ _).mp h1)
        · exact Or.inr (by simpa using h1)
      · rw [if_neg hc] at h
        cases h
    · rw [if_pos (by simp [hf])] at h
      cases h
  · rintro ⟨hf, hc⟩
    have hb : ("Condition".data.isSuffixOf link.type.data || link.type == "Split Range")
        = true := by
      rcases hc with h1 | h1
      · exact (Bool.or_eq_true _ _).mpr (Or.inl ((isSuffixOf_iff_suffix _ _).mpr h1))
      · exact (Bool.or_eq_true _ _).mpr (Or.inr (by simp [h1]))
    rw [if_neg (by simp [hf]), if_pos hb]

/-- The claim's reading of the Apply/`Input` rule: the link itself is the
parent's first child link. -/
def firstChildApplyInput (qp : QueryPlan) (l : ChildLink) : Prop :=
  strEndsWith (GetParentNodeByChildLink qp (some l)).displayName "Apply" = true ∧
  (GetParentNodeByChildLink qp (some l)).childLinks.head? = some l

instance (qp : QueryPlan) (l : ChildLink) : Decidable (firstChildApplyInput qp l) := by
  unfold firstChildApplyInput
  infer_instance

/-- A plan whose `Cross Apply` root links to the same child twice with
different link types: the second, type-less link is not the parent's first
child link, yet it carries the same child index as the first. -/
def c6Nodes : List PlanNode :=
  [{ index := 0, kind := .RELATIONAL, displayName := "Cross Apply",
     childLinks := [{ childIndex := 1, type := "X" }, { childIndex := 1 }] },
   { index := 1, kind := .RELATIONAL, displayName := "Scan" }]

def c6Qp : QueryPlan :=
  { planNodes := c6Nodes, parentMap := buildParentMap c6Nodes }

/-- Counterexample to C6 as stated: for the second, type-less link of the
`Cross Apply` above, `GetLinkType` returns `"Input"` although that link is
not the parent's first child link — the code only compares child indices. -/
theorem C6_counterexample :
    linkType (some ({ childIndex := 1 } : ChildLink)) = "" ∧
    GetLinkType c6Qp (some { childIndex := 1 }) = "Input" ∧
    ¬ firstChildApplyInput c6Qp { childIndex := 1 } := by
  decide

/-- C6 (amended): `GetLinkType` returns the link's own type when non-empty;
otherwise it returns `"Input"` exactly when the link's parent node's display
name ends with `"Apply"` and the parent's first child link carries the same
child index as this link; otherwise it returns the empty string. -/
theorem C6_getLinkType_characterization (qp : QueryPlan) (l : ChildLink) :
    GetLinkType qp (some l) =
      if l.type ≠ "" then l.type
      else if strEndsWith (GetParentNodeByChildLink qp (some l)).displayName "Apply" = true ∧
          ((GetParentNodeByChildLink qp (some l)).childLinks.head?.any
            (fun f => f.childIndex == l.childIndex)) = true then "Input"
      else "" := by
  unfold GetLinkType
  dsimp only
  simp only [linkType, linkChildIndex]
  by_cases ht : l.type = ""
  · simp only [ht, ne_eq, not_true_eq_false, if_false]
    rw [show (("" : String) != "") = false from rfl]
    simp only [Bool.false_eq_true, if_false]
    have hiff : (strEndsWith (GetParentNodeByChildLink qp (some l)).displayName "Apply" &&
        decide (0 < (GetParentNodeByChildLink qp (some l)).childLinks.length) &&
        ((GetParentNodeByChildLink qp (some l)).childLinks.headD {}).childIndex ==
          l.childIndex) = true ↔
        (strEndsWith (GetParentNodeByChildLink qp (some l)).displayName "Apply" = true ∧
          ((GetParentNodeByChildLink qp (some l)).childLinks.head?.any
            (fun f => f.childIndex == l.childIndex)) = true) := by
      cases hcl : (GetParentNodeByChildLink qp (some l)).childLinks with
      | nil => simp [hcl]
      | cons f fs => simp [hcl, List.headD, Bool.and_assoc, Bool.and_eq_true]
    by_cases hc : strEndsWith (GetParentNodeByChildLink qp (some l)).displayName "Apply" = true ∧
        ((GetParentNodeByChildLink qp (some l)).childLinks.head?.any
          (fun f => f.childIndex == l.childIndex)) = true
    · rw [if_pos (hiff.mpr hc), if_pos hc]
    · rw [if_neg (fun h => hc (hiff.mp h)), if_neg hc]
  · have ht' : (l.type != "") = true := by simp [ht]
    rw [if_pos ht', if_pos (by simp [ht])]

/-- The two decode-error constructors that carry the offending fragment. -/
def errFragment : DecodeErr → Option (List Char)
  | .badFormat l => some l
  | .badJson l => some l
  | _ => none

/-- C7: a non-blank fragment decodes successfully exactly when it splits on
tab into three fields whose title and link-descriptor fields JSON-decode;
every decode error carries the offending raw fragment, and a failing
fragment aborts the whole row decode with that error, producing no row
list. -/
theorem C7_fragment_errors (frag : List Char) (hnb : frag.all isGoSpace = false) :
    ((decodeFragment frag).isOk = true ↔
      ((splitOnChar '\t' frag).length = 3 ∧
        (jsonDecodeString ((splitOnChar '\t' frag).getD 1 [])).isSome = true ∧
        (decodeLink ((splitOnChar '\t' frag).getD 2 [])).isSome = true)) ∧
    (∀ e, decodeFragment frag = .error e → errFragment e = some frag) ∧
    (∀ (qp : QueryPlan) (strict : Bool) (rest : List (List Char)) (e : DecodeErr),
      decodeFragment frag = .error e →
      decodeRows qp strict (frag :: rest) = .error e) := by
  refine ⟨?_, ?_, ?_⟩
  · unfold decodeFragment
    dsimp only
    by_cases hlen : (splitOnChar '\t' frag).length = 3
    · rw [if_neg (by simp [hlen])]
      cases hjs : jsonDecodeString ((splitOnChar '\t' frag).getD 1 []) with
      | none => simp [Except.isOk, Except.toBool, hlen, hjs]
      | some nt =>
        cases hdl : decodeLink ((splitOnChar '\t' frag).getD 2 []) with
        | none => simp [Except.isOk, Except.toBool, hlen, hjs, hdl]
        | some lk => simp [Except.isOk, Except.toBool, hlen, hjs, hdl]
    · rw [if_pos (by simp [hlen])]
      simp [Except.isOk, Except.toBool, hlen]
  · intro e he
    unfold decodeFragment at he
    dsimp only at he
    by_cases hlen : (splitOnChar '\t' frag).length = 3
    · rw [if_neg (by simp [hlen])] at he
      cases hjs : jsonDecodeString ((splitOnChar '\t' frag).getD 1 []) with
      | none =>
        rw [hjs] at he
        injection he with he
        subst he
        rfl
      | some nt =>
        rw [hjs] at he
        cases hdl : decodeLink ((splitOnChar '\t' frag).getD 2 []) with
        | none =>
          rw [hdl] at he
          injection he with he
          subst he
          rfl
        | some lk =>
          rw [hdl] at he
          cases he
    · rw [if_pos (by simp [hlen])] at he
      injection he with he
      subst he
      rfl
  · intro qp strict rest e he
    simp only [decodeRows, hnb, he]
    rfl

/-- Witness for C7 at a one-field fragment. -/
theorem C7_fragment_errors_witness :
    errFragment (DecodeErr.badFormat ['x']) = some ['x'] ∧
    decodeRows demoQp false [['x']] = .error (.badFormat ['x']) := by
  have h := C7_fragment_errors ['x'] (by decide)
  have hdf : decodeFragment ['x'] = .error (.badFormat ['x']) := rfl
  exact ⟨h.2.1 _ hdf, h.2.2 demoQp false [] _ hdf⟩

/-! ### Stats extraction: field-level characterization -/

/-- Read one declared field of the aggregate by its JSON name. -/
def getStatsField (es : ExecutionStats) (k : String) : Option String :=
  if k = "rows" then es.rows
  else if k = "scanned_rows" then es.scannedRows
  else if k = "filtered_rows" then es.filteredRows
  else if k = "execution_summary" then es.executionSummary
  else if k = "latency" then es.latency
  else if k = "cpu_time" then es.cpuTime
  else if k = "remote_calls" then es.remoteCalls
  else none

theorem getStatsField_default (k : String) : getStatsField {} k = none := by
  unfold getStatsField
  split_ifs <;> rfl

theorem getStatsField_set (s : ExecutionStats) (k k' : String) (v : String)
    (hk : k ∈ declaredStatsKeys) :
    getStatsField (setStatsField s k' v) k = if k' = k then some v else getStatsField s k := by
  have hk7 : k = "rows" ∨ k = "scanned_rows" ∨ k = "filtered_rows" ∨
      k = "execution_summary" ∨ k = "latency" ∨ k = "cpu_time" ∨ k = "remote_calls" := by
    simpa [declaredStatsKeys] using hk
  by_cases hkk : k' = k
  · subst hkk
    rcases hk7 with rfl | rfl | rfl | rfl | rfl | rfl | rfl <;>
      simp [setStatsField, getStatsField]
  · rw [if_neg hkk]
    rcases hk7 with rfl | rfl | rfl | rfl | rfl | rfl | rfl <;>
      (unfold setStatsField; split_ifs <;> simp_all [getStatsField])

theorem getLast?_cons {α : Type} (a : α) (l : List α) :
    (a :: l).getLast? = l.getLast?.or (some a) := by
  induction l generalizing a with
  | nil => rfl
  | cons b l ih =>
    rw [List.getLast?_cons_cons, ih b]
    cases hl : l.getLast? with
    | none =>
      cases l with
      | nil => rfl
      | cons c l2 => rw [getLast?_cons c l2] at hl; cases hor : (c :: l2).getLast?
        <;> simp_all [Option.or]
    | some x => simp [Option.or]

theorem decodeStatsFields_field (fields : List (String × String)) :
    ∀ (s : ExecutionStats) (strict : Bool) (es : ExecutionStats),
      decodeStatsFields s fields strict = .ok es →
      ∀ k ∈ declaredStatsKeys,
        getStatsField es k =
          (((fields.filter (fun kv => kv.1 = k)).map Prod.snd).getLast?).or
            (getStatsField s k) := by
  induction fields with
  | nil =>
    intro s strict es h k _
    injection h with h
    subst h
    simp
  | cons kv fields ih =>
    intro s strict es h k hk
    by_cases hd : kv.1 ∈ declaredStatsKeys
    · rw [show decodeStatsFields s (kv :: fields) strict =
          decodeStatsFields (setStatsField s kv.1 kv.2) fields strict from by
        simp [decodeStatsFields, hd]] at h
      have hrec := ih _ strict es h k hk
      rw [hrec, getStatsField_set s k kv.1 kv.2 hk]
      by_cases hkk : kv.1 = k
      · rw [if_pos hkk]
        rw [show (kv :: fields).filter (fun kv => kv.1 = k) =
            kv :: fields.filter (fun kv => kv.1 = k) from by simp [List.filter_cons, hkk]]
        rw [List.map_cons, getLast?_cons]
        cases hl : ((fields.filter (fun kv => kv.1 = k)).map Prod.snd).getLast? <;>
          simp [Option.or]
      · rw [if_neg hkk]
        rw [show (kv :: fields).filter (fun kv => kv.1 = k) =
            fields.filter (fun kv => kv.1 = k) from by simp [List.filter_cons, hkk]]
    · cases strict with
      | true =>
        rw [show decodeStatsFields s (kv :: fields) true =
            .error (.unknownField kv.1) from by simp [decodeStatsFields, hd]] at h
        cases h
      | false =>
        rw [show decodeStatsFields s (kv :: fields) false =
            decodeStatsFields s fields false from by simp [decodeStatsFields, hd]] at h
        have hrec := ih _ false es h k hk
        rw [hrec]
        have hkk : kv.1 ≠ k := fun hkk => hd (hkk ▸ hk)
        rw [show (kv :: fields).filter (fun kv => kv.1 = k) =
            fields.filter (fun kv => kv.1 = k) from by simp [List.filter_cons, hkk]]

theorem decodeStatsFields_lenient_ok (fields : List (String × String)) :
    ∀ s : ExecutionStats, ∃ es, decodeStatsFields s fields false = .ok es := by
  induction fields with
  | nil => intro s; exact ⟨s, rfl⟩
  | cons kv fields ih =>
    intro s
    by_cases hd : kv.1 ∈ declaredStatsKeys
    · obtain ⟨es, hes⟩ := ih (setStatsField s kv.1 kv.2)
      exact ⟨es, by simpa [decodeStatsFields, hd] using hes⟩
    · obtain ⟨es, hes⟩ := ih s
      exact ⟨es, by simpa [decodeStatsFields, hd] using hes⟩

theorem decodeStatsFields_lenient_filter (fields : List (String × String)) :
    ∀ s : ExecutionStats, decodeStatsFields s fields false =
      decodeStatsFields s (fields.filter (fun kv => kv.1 ∈ declaredStatsKeys)) false := by
  induction fields with
  | nil => intro s; rfl
  | cons kv fields ih =>
    intro s
    by_cases hd : kv.1 ∈ declaredStatsKeys
    · rw [show (kv :: fields).filter (fun kv => kv.1 ∈ declaredStatsKeys) =
          kv :: fields.filter (fun kv => kv.1 ∈ declaredStatsKeys) from by
        simp [List.filter_cons, hd]]
      simp only [decodeStatsFields, hd, if_pos]
      exact ih (setStatsField s kv.1 kv.2)
    · rw [show (kv :: fields).filter (fun kv => kv.1 ∈ declaredStatsKeys) =
          fields.filter (fun kv => kv.1 ∈ declaredStatsKeys) from by
        simp [List.filter_cons, hd]]
      rw [show decodeStatsFields s (kv :: fields) false =
          decodeStatsFields s fields false from by simp [decodeStatsFields, hd]]
      exact ih s

theorem decodeStatsFields_strict_unknown (fields : List (String × String)) :
    ∀ s : ExecutionStats, (∃ kv ∈ fields, kv.1 ∉ declaredStatsKeys) →
      ∃ k, decodeStatsFields s fields true = .error (.unknownField k) := by
  induction fields with
  | nil =>
    intro s h
    obtain ⟨kv, hkv, -⟩ := h
    cases hkv
  | cons kv fields ih =>
    intro s h
    by_cases hd : kv.1 ∈ declaredStatsKeys
    · obtain ⟨kv2, hkv2, hkv2d⟩ := h
      rcases List.mem_cons.mp hkv2 with rfl | hkv2
      · exact absurd hd hkv2d
      · obtain ⟨k, hk⟩ := ih (setStatsField s kv.1 kv.2) ⟨kv2, hkv2, hkv2d⟩
        exact ⟨k, by simpa [decodeStatsFields, hd] using hk⟩
    · exact ⟨kv.1, by simp [decodeStatsFields, hd]⟩

/-- C8: stats extraction — an absent payload yields the zero-valued
aggregate without error; a payload with an undeclared field fails in strict
mode and succeeds in lenient mode with the unknown fields dropped; in both
modes every declared field present in the payload is populated (with its
last occurrence's value). -/
theorem C8_stats_extraction :
    (∀ (node : PlanNode) (strict : Bool), node.executionStats = none →
      Extract node strict = .ok {}) ∧
    (∀ (node : PlanNode) (fields : List (String × String)),
      node.executionStats = some fields →
      ((∃ kv ∈ fields, kv.1 ∉ declaredStatsKeys) →
        ∃ k, Extract node true = .error (.unknownField k)) ∧
      (∃ es, Extract node false = .ok es) ∧
      (Extract node false =
        decodeStatsFields {} (fields.filter (fun kv => kv.1 ∈ declaredStatsKeys)) false) ∧
      (∀ (strict : Bool) (es : ExecutionStats), Extract node strict = .ok es →
        ∀ k ∈ declaredStatsKeys,
          getStatsField es k = ((fields.filter (fun kv => kv.1 = k)).map Prod.snd).getLast?)) := by
  constructor
  · intro node strict h
    unfold Extract
    rw [h]
  · intro node fields h
    have hx : ∀ strict, Extract node strict = decodeStatsFields {} fields strict := by
      intro strict
      unfold Extract
      rw [h]
    refine ⟨?_, ?_, ?_, ?_⟩
    · intro hunk
      obtain ⟨k, hk⟩ := decodeStatsFields_strict_unknown fields {} hunk
      exact ⟨k, by rw [hx true]; exact hk⟩
    · obtain ⟨es, hes⟩ := decodeStatsFields_lenient_ok fields {}
      exact ⟨es, by rw [hx false]; exact hes⟩
    · rw [hx false]
      exact decodeStatsFields_lenient_filter fields {}
    · intro strict es hes k hk
      rw [hx strict] at hes
      have := decodeStatsFields_field fields {} strict es hes k hk
      rw [this, getStatsField_default, Option.or_none]

/-- Witness for C8 on a payload with a declared and an undeclared field. -/
theorem C8_stats_extraction_witness :
    (Extract {} true = .ok {}) ∧
    (∃ k, Extract { executionStats := some [("rows", "5"), ("foo", "1")] } true =
      .error (.unknownField k)) ∧
    (∃ es, Extract { executionStats := some [("rows", "5"), ("foo", "1")] } false = .ok es) ∧
    (∀ es, Extract { executionStats := some [("rows", "5"), ("foo", "1")] } false = .ok es →
      getStatsField es "rows" = some "5") := by
  have h := C8_stats_extraction
  have h2 := h.2 { executionStats := some [("rows", "5"), ("foo", "1")] }
    [("rows", "5"), ("foo", "1")] rfl
  refine ⟨h.1 {} true rfl, h2.1 ⟨("foo", "1"), by decide, by decide⟩, h2.2.1, ?_⟩
  intro es hes
  have hfield := h2.2.2.2 false es hes "rows" (by decide)
  rw [hfield]
  decide

/-! ### Parent-map construction facts -/

theorem foldl_links_sub (node : PlanNode) :
    ∀ (cls : List ChildLink) (acc : List (Nat × Nat)) (pr : Nat × Nat), pr ∈ acc →
      pr ∈ cls.foldl (fun m cl => (cl.childIndex, node.index) :: m) acc := by
  intro cls
  induction cls with
  | nil => intro acc pr h; exact h
  | cons cl cls ih =>
    intro acc pr h
    exact ih _ pr (List.mem_cons_of_mem _ h)

theorem foldl_links_mem (node : PlanNode) :
    ∀ (cls : List ChildLink) (acc : List (Nat × Nat)) (pr : Nat × Nat),
      pr ∈ cls.foldl (fun m cl => (cl.childIndex, node.index) :: m) acc →
      pr ∈ acc ∨ ∃ cl ∈ cls, pr = (cl.childIndex, node.index) := by
  intro cls
  induction cls with
  | nil => intro acc pr h; exact Or.inl h
  | cons cl cls ih =>
    intro acc pr h
    rcases ih _ pr h with h2 | ⟨cl2, hcl2, rfl⟩
    · rcases List.mem_cons.mp h2 with rfl | h3
      · exact Or.inr ⟨cl, List.mem_cons_self cl cls, rfl⟩
      · exact Or.inl h3
    · exact Or.inr ⟨cl2, List.mem_cons_of_mem cl hcl2, rfl⟩

theorem foldl_links_complete (node : PlanNode) :
    ∀ (cls : List ChildLink) (acc : List (Nat × Nat)) (cl : ChildLink), cl ∈ cls →
      (cl.childIndex, node.index) ∈ cls.foldl (fun m cl => (cl.childIndex, node.index) :: m) acc := by
  intro cls
  induction cls with
  | nil => intro acc cl h; cases h
  | cons cl2 cls ih =>
    intro acc cl h
    rcases List.mem_cons.mp h with rfl | h
    · exact foldl_links_sub node cls _ _ (List.mem_cons_self _ _)
    · exact ih _ cl h

theorem buildParentMap_aux_sub (nodes : List PlanNode) :
    ∀ (acc : List (Nat × Nat)) (pr : Nat × Nat), pr ∈ acc →
      pr ∈ nodes.foldl
        (fun m node => node.childLinks.foldl (fun m cl => (cl.childIndex, node.index) :: m) m)
        acc := by
  induction nodes with
  | nil => intro acc pr h; exact h
  | cons node nodes ih =>
    intro acc pr h
    exact ih _ pr (foldl_links_sub node node.childLinks acc pr h)

theorem buildParentMap_aux_mem (nodes : List PlanNode) :
    ∀ (acc : List (Nat × Nat)) (pr : Nat × Nat),
      pr ∈ nodes.foldl
        (fun m node => node.childLinks.foldl (fun m cl => (cl.childIndex, node.index) :: m) m)
        acc →
      pr ∈ acc ∨ ∃ node ∈ nodes, node.index = pr.2 ∧ ∃ cl ∈ node.childLinks, cl.childIndex = pr.1 := by
  induction nodes with
  | nil => intro acc pr h; exact Or.inl h
  | cons node nodes ih =>
    intro acc pr h
    rcases ih _ pr h with h2 | ⟨node2, hn2, hi2, cl2, hcl2, hc2⟩
    · rcases foldl_links_mem node node.childLinks acc pr h2 with h3 | ⟨cl, hcl, rfl⟩
      · exact Or.inl h3
      · exact Or.inr ⟨node, List.mem_cons_self node nodes, rfl, cl, hcl, rfl⟩
    · exact Or.inr ⟨node2, List.mem_cons_of_mem node hn2, hi2, cl2, hcl2, hc2⟩

theorem buildParentMap_aux_complete (nodes : List PlanNode) :
    ∀ (acc : List (Nat × Nat)) (node : PlanNode), node ∈ nodes →
      ∀ cl ∈ node.childLinks,
      (cl.childIndex, node.index) ∈ nodes.foldl
        (fun m node => node.childLinks.foldl (fun m cl => (cl.childIndex, node.index) :: m) m)
        acc := by
  induction nodes with
  | nil => intro acc node h; cases h
  | cons node2 nodes ih =>
    intro acc node h cl hcl
    rcases List.mem_cons.mp h with rfl | h
    · exact buildParentMap_aux_sub nodes _ _
        (foldl_links_complete node node.childLinks acc cl hcl)
    · exact ih _ node h cl hcl

theorem lookup_isSome_of_mem {l : List (Nat × Nat)} {k v : Nat} (h : (k, v) ∈ l) :
    (l.lookup k).isSome = true := by
  induction l with
  | nil => cases h
  | cons p l ih =>
    obtain ⟨k2, v2⟩ := p
    by_cases hk : k = k2
    · subst hk
      simp [List.lookup]
    · have hb : (k == k2) = false := by simpa using hk
      simp only [List.lookup, hb]
      rcases List.mem_cons.mp h with h2 | h2
      · injection h2 with h3 h4
        exact absurd h3 hk
      · exact ih h2

theorem mem_of_lookup_eq_some {l : List (Nat × Nat)} {k v : Nat}
    (h : l.lookup k = some v) : (k, v) ∈ l := by
  induction l with
  | nil => cases h
  | cons p l ih =>
    obtain ⟨k2, v2⟩ := p
    by_cases hk : k = k2
    · subst hk
      have hb : (k == k) = true := by simp
      simp only [List.lookup, hb] at h
      injection h with h
      subst h
      exact List.mem_cons_self _ _
    · have hb : (k == k2) = false := by simpa using hk
      simp only [List.lookup, hb] at h
      exact List.mem_cons_of_mem _ (ih h)

/-- C9: `New` fails with the empty-plan-nodes error exactly on an empty node
list; for a non-empty list it returns a plan whose parent map, built in one
pass over all child links, sends each linked child index to the index of a
node that lists it as a child — and every linked child index is in the
map. -/
theorem C9_new_construction :
    (∀ nodes : List PlanNode, New nodes = .error .emptyPlanNodes ↔ nodes = []) ∧
    (∀ (nodes : List PlanNode) (qp : QueryPlan), New nodes = .ok qp →
      (∀ c p, qp.parentMap.lookup c = some p →
        ∃ node ∈ nodes, node.index = p ∧ ∃ cl ∈ node.childLinks, cl.childIndex = c) ∧
      (∀ node ∈ nodes, ∀ cl ∈ node.childLinks,
        (qp.parentMap.lookup cl.childIndex).isSome = true)) := by
  constructor
  · intro nodes
    unfold New
    constructor
    · intro h
      by_cases he : nodes.isEmpty
      · exact List.isEmpty_iff.mp he
      · rw [if_neg he] at h
        cases h
    · intro h
      subst h
      rfl
  · intro nodes qp h
    unfold New at h
    by_cases he : nodes.isEmpty
    · rw [if_pos he] at h
      cases h
    · rw [if_neg he] at h
      injection h with h
      subst h
      constructor
      · intro c p hl
        have hmem : (c, p) ∈ buildParentMap nodes := mem_of_lookup_eq_some hl
        rcases buildParentMap_aux_mem nodes [] (c, p) hmem with h2 | ⟨node, hn, hi, cl, hcl, hc⟩
        · cases h2
        · exact ⟨node, hn, hi, cl, hcl, hc⟩
      · intro node hn cl hcl
        exact lookup_isSome_of_mem (buildParentMap_aux_complete nodes [] node hn cl hcl)

/-- Witness for C9 on the demonstration plan. -/
theorem C9_new_construction_witness :
    (New ([] : List PlanNode) = .error .emptyPlanNodes) ∧
    ((demoQp.parentMap.lookup 1).isSome = true) ∧
    (∃ node ∈ demoNodes, node.index = 0 ∧ ∃ cl ∈ node.childLinks, cl.childIndex = 1) := by
  have h := C9_new_construction
  have h2 := h.2 demoNodes demoQp rfl
  refine ⟨(h.1 []).mpr rfl, ?_, ?_⟩
  · exact h2.2 (demoNodes.getD 0 default) (by decide) { childIndex := 1 } (by decide)
  · exact h2.1 1 0 (by decide)

theorem getD_zero_eq_headD (l : List PlanNode) :
    l.getD 0 default = l.head?.getD default := by
  cases l <;> rfl

/-- C10: a `nil` child link's child index defaults to `0`, so
`GetNodeByChildLink nil` is the node stored at position `0` — the root — and
the linearizer's traversal, started on the `nil` link, begins at that
root. -/
theorem C10_nil_link_resolves_to_root (qp : QueryPlan) (h : qp.planNodes ≠ []) :
    linkChildIndex none = 0 ∧
    GetNodeByChildLink qp none = qp.planNodes.head h ∧
    (∀ (fuel : Nat) (links : List (Option ChildLink × Nat)), IsVisible qp none = true →
      dfsVisible (fuel + 1) qp none 0 = some links → links.head? = some (none, 0)) := by
  refine ⟨rfl, ?_, ?_⟩
  · have h0 : qp.planNodes.head? = some (qp.planNodes.head h) := List.head?_eq_head h
    show qp.planNodes.getD 0 default = qp.planNodes.head h
    rw [getD_zero_eq_headD, h0]
    rfl
  · intro fuel links hvis hdfs
    simp only [dfsVisible, hvis, Bool.not_true, Bool.false_eq_true, if_false] at hdfs
    cases hmm : (VisibleChildLinks qp (GetNodeByChildLink qp none)).mapM
        (fun c => dfsVisible fuel qp (some c) 1) with
    | none => rw [hmm] at hdfs; cases hdfs
    | some rest =>
      rw [hmm] at hdfs
      injection hdfs with hdfs
      subst hdfs
      rfl

/-- Witness for C10 on the demonstration plan. -/
theorem C10_nil_link_resolves_to_root_witness :
    GetNodeByChildLink demoQp none =
      { index := 0, kind := .RELATIONAL, displayName := "Union",
        childLinks := [{ childIndex := 1 }, { childIndex := 2 }] } := by
  have h := (C10_nil_link_resolves_to_root demoQp (by decide)).2.1
  rw [h]
  decide

end Spannerplan
